import Mathlib

/-! # go-promise: promises and their combinators

A shallow embedding of `promise.go` and proofs about it.

Goroutines are the threads of a labelled transition system.  Every channel
operation and every access to a variable shared between goroutines is one
atomic step; a label names the goroutine that moves, and a schedule is a list
of labels.  An operation that blocks is a step that is not enabled, and a call
that never returns is a caller that no reachable state shows as returned.

* An `interface{}` or `error` is `none` for `nil` and `some k` otherwise; the
  code only ever compares such a value with `nil`.
* A channel variable is `none` for the nil channel, as `Resolve` and `Reject`
  leave the two channels of a promise.
* A `Resolver` is the sequence of writes it makes to its two channels; the
  goroutine `New` starts for it makes them one by one.
* The promises passed to a combinator are distinct objects, each made by its
  own call of `New`, `Resolve` or `Reject`: entry `idx` of the state is
  `futures[idx]` together with the producer goroutine of that promise.
* The counter `count` is an `int32`, kept as its residue modulo `2 ^ 32`.
-/

namespace GoPromise

/-! ## Values, channels, promises -/

/-- Go `interface{}`: `none` is `nil`, `some k` is a non-nil value. -/
abbrev Val := Option Nat

/-- Go `error`: `none` is `nil`, `some k` is a non-nil error. -/
abbrev Err := Option Nat

/-- The type `State` of `promise.go` with its three constants. -/
inductive State where
  | StatePending
  | StateFulfilled
  | StateRejected
  deriving DecidableEq

/-- A buffered channel made by `make(chan T, cap)` and what it holds. -/
structure Chan (α : Type) where
  cap : Nat
  buf : List α
  deriving DecidableEq

/-- A channel variable: `none` is the nil channel. -/
abbrev ChanRef (α : Type) := Option (Chan α)

/-- Go `make(chan T, cap)`. -/
def make (α : Type) (cap : Nat) : ChanRef α := some ⟨cap, []⟩

/-- Receive `<-c`: the value and the channel left, `none` when the receive
blocks (nothing buffered, or the nil channel). -/
def recv {α : Type} : ChanRef α → Option (α × ChanRef α)
  | some ⟨cap, x :: xs⟩ => some (x, some ⟨cap, xs⟩)
  | _ => none

/-- Send `c <- x`: the channel after it, `none` when the send blocks (buffer
full, or the nil channel). -/
def send {α : Type} (c : ChanRef α) (x : α) : Option (ChanRef α) :=
  match c with
  | some ⟨cap, buf⟩ => if buf.length < cap then some (some ⟨cap, buf ++ [x]⟩) else none
  | none => none

/-- One channel write of a producer: `resolve <- v` or `reject <- e`. -/
inductive Write where
  | resolve (v : Val)
  | reject (e : Err)
  deriving DecidableEq

/-- A `Resolver`, as the sequence of writes it makes to its two channels. -/
abbrev Resolver := List Write

/-- The struct `Promise`. -/
structure Promise where
  val : Val
  err : Err
  State : State
  resolver : Option Resolver
  resolve : ChanRef Val
  reject : ChanRef Err
  deriving DecidableEq

/-- A promise together with the goroutine `go resolver(p.resolve, p.reject)`
started for it: `prod` is what that goroutine has still to write. -/
structure Fut where
  p : Promise
  prod : List Write
  deriving DecidableEq

/-- The function `New`: a pending promise with two channels of capacity 1,
and its resolver started as a goroutine. -/
def New (resolver : Resolver) : Fut :=
  { p := { val := none, err := none, State := State.StatePending,
           resolve := make Val 1, reject := make Err 1, resolver := some resolver },
    prod := resolver }

/-- The function `Resolve`: the channels are left nil, no goroutine starts. -/
def Resolve (val : Val) : Fut :=
  { p := { val := val, err := none, State := State.StateFulfilled,
           resolver := none, resolve := none, reject := none },
    prod := [] }

/-- The function `Reject`: the channels are left nil, no goroutine starts. -/
def Reject (err : Err) : Fut :=
  { p := { val := none, err := err, State := State.StateRejected,
           resolver := none, resolve := none, reject := none },
    prod := [] }

/-- One step of the producer goroutine: its next write, `none` when it has
finished or the write blocks. -/
def Fut.produce (f : Fut) : Option Fut :=
  match f.prod with
  | [] => none
  | Write.resolve v :: rest =>
    (send f.p.resolve v).map fun c => { p := { f.p with resolve := c }, prod := rest }
  | Write.reject e :: rest =>
    (send f.p.reject e).map fun c => { p := { f.p with reject := c }, prod := rest }

/-- The statement `select { case val := <-p.resolve: ... case err := <-p.reject: ... }`
that `Await` and every combinator runs: the promise with the channel read, and
what was received.  `none` when both receives block; `pick` is the case Go
takes when both are ready. -/
def selectSettle (pick : Bool) (p : Promise) : Option (Promise × (Val ⊕ Err)) :=
  match recv p.resolve, recv p.reject with
  | some (v, c), none => some ({ p with resolve := c }, Sum.inl v)
  | none, some (e, c) => some ({ p with reject := c }, Sum.inr e)
  | some (v, c), some (e, d) =>
    if pick then some ({ p with resolve := c }, Sum.inl v)
    else some ({ p with reject := d }, Sum.inr e)
  | none, none => none

/-- The method `Await`: the pair it returns and the promise after the call,
`none` while the call blocks. -/
def Await (pick : Bool) (p : Promise) : Option ((Val × Err) × Promise) :=
  if p.val ≠ none ∨ p.err ≠ none then some ((p.val, p.err), p)
  else
    match selectSettle pick p with
    | none => none
    | some (q, Sum.inl val) =>
      let q := { q with val := val, State := State.StateFulfilled }
      some ((q.val, q.err), q)
    | some (q, Sum.inr err) =>
      let q := { q with State := State.StateRejected, err := err }
      some ((q.val, q.err), q)

/-- An `int32` as its residue modulo `2 ^ 32`: `atomic.AddInt32` wraps around,
the conversion `int32(len(...))` keeps the low 32 bits, and two `int32` are equal
when their residues are. -/
def int32 (n : Nat) : Nat := n % 2 ^ 32

/-! ## Schedules -/

/-- Which goroutine moves: the producer of promise `i`, the `i`-th goroutine a
combinator started, or the goroutine that called the function.  `pick` is the
choice a `select` makes when both its cases are ready. -/
inductive Label where
  | producer (i : Nat)
  | observer (i : Nat) (pick : Bool)
  | caller (pick : Bool)
  deriving DecidableEq

/-- States a system can be in after some steps from `init`. -/
inductive Reachable {L S : Type} (step : L → S → Option S) (init : S) : S → Prop where
  | start : Reachable step init init
  | next {s t : S} {l : L} : Reachable step init s → step l s = some t → Reachable step init t

/-- Run a schedule: every label has to name an enabled step. -/
def exec {L S : Type} (step : L → S → Option S) : List L → S → Option S
  | [], s => some s
  | l :: ls, s => (step l s).bind (exec step ls)

/-- The call returns under every schedule, with a result satisfying `P`:
whatever is returned satisfies `P`, as long as nothing is returned some
goroutine can move, and no execution goes on for ever. -/
structure Returns {L S R : Type} (step : L → S → Option S) (ret : S → Option R)
    (init : S) (P : R → Prop) : Prop where
  safe : ∀ s, Reachable step init s → ∀ r, ret s = some r → P r
  progress : ∀ s, Reachable step init s → ret s = none → ∃ l t, step l s = some t
  bounded : ∃ μ : S → Nat, ∀ s, Reachable step init s → ∀ l t, step l s = some t → μ t < μ s

/-! ## A caller awaiting one promise -/

/-- A goroutine that calls `p.Await()` `todo` more times, one call after the
other, next to the producer of `p`. -/
structure AwaitSt where
  fut : Fut
  todo : Nat
  rets : List (Val × Err)
  deriving DecidableEq

namespace AwaitSt

/-- Before the first of `k` calls. -/
def init (f : Fut) (k : Nat) : AwaitSt := { fut := f, todo := k, rets := [] }

/-- One step: the producer writes, or the pending `Await` call returns. -/
def step : Label → AwaitSt → Option AwaitSt
  | Label.producer 0, s => s.fut.produce.map fun f => { s with fut := f }
  | Label.caller pick, s =>
    match s.todo with
    | 0 => none
    | k + 1 =>
      (Await pick s.fut.p).map fun x =>
        { fut := { s.fut with p := x.2 }, todo := k, rets := s.rets ++ [x.1] }
  | _, _ => none

/-- Once every call has returned: what the last call returned, and the promise. -/
def ret (s : AwaitSt) : Option ((Val × Err) × Promise) :=
  if s.todo = 0 then s.rets.getLast?.map fun r => (r, s.fut.p) else none

end AwaitSt

/-! ## AllSettled -/

/-- The caller inside `AllSettled(futures...)`, next to the producers. -/
structure AllSettledSt where
  futures : List Fut
  idx : Nat
  result : List Val
  reasons : List Err
  ret : Option (List Val × List Err)
  deriving DecidableEq

namespace AllSettled

/-- Entering `AllSettled`: `result` and `reasons` are made with `len(futures)`
nil entries. -/
def init (futures : List Fut) : AllSettledSt :=
  { futures := futures, idx := 0,
    result := List.replicate futures.length none,
    reasons := List.replicate futures.length none,
    ret := none }

/-- One step: a producer writes, or the caller runs the `select` of iteration
`idx` of `for idx := range futures`, or, the loop over, returns. -/
def step : Label → AllSettledSt → Option AllSettledSt
  | Label.producer i, s =>
    match s.futures[i]? with
    | none => none
    | some f => f.produce.map fun g => { s with futures := s.futures.set i g }
  | Label.caller pick, s =>
    match s.ret with
    | some _ => none
    | none =>
      match s.futures[s.idx]? with
      | none => some { s with ret := some (s.result, s.reasons) }
      | some f =>
        match selectSettle pick f.p with
        | none => none
        | some (q, Sum.inl val) =>
          some { s with futures := s.futures.set s.idx { f with p := q },
                        result := s.result.set s.idx val, idx := s.idx + 1 }
        | some (q, Sum.inr err) =>
          some { s with futures := s.futures.set s.idx { f with p := q },
                        reasons := s.reasons.set s.idx err, idx := s.idx + 1 }
  | _, _ => none

end AllSettled

/-- A caller that runs `AllSettled(futures...)` and then `futures[i].Await()`. -/
structure ThenAwaitSt where
  settled : AllSettledSt
  i : Nat
  awaited : Option (Val × Err)
  deriving DecidableEq

namespace ThenAwait

/-- Before the call of `AllSettled`. -/
def init (futures : List Fut) (i : Nat) : ThenAwaitSt :=
  { settled := AllSettled.init futures, i := i, awaited := none }

/-- One step: a step of `AllSettled` until it has returned, then the call of
`Await` on promise `i`; producers move at any time. -/
def step : Label → ThenAwaitSt → Option ThenAwaitSt
  | Label.caller pick, s =>
    match s.settled.ret with
    | none => (AllSettled.step (Label.caller pick) s.settled).map fun t => { s with settled := t }
    | some _ =>
      match s.awaited with
      | some _ => none
      | none =>
        match s.settled.futures[s.i]? with
        | none => none
        | some f =>
          (Await pick f.p).map fun x =>
            { s with settled := { s.settled with
                                  futures := s.settled.futures.set s.i { f with p := x.2 } },
                     awaited := some x.1 }
  | l, s => (AllSettled.step l s.settled).map fun t => { s with settled := t }

end ThenAwait

/-! ## The goroutines of All, Race and Any -/

/-- Where a goroutine `go func(idx int)` of a combinator stands. -/
inductive Pc where
  | select
  | setVal (val : Val)
  | setErr (err : Err)
  | doneEarly
  | add
  | load
  | doneAll
  | exit
  deriving DecidableEq

/-- Goroutine `idx` of a combinator with `futures[idx]`, the promise it reads,
and that promise's producer. -/
structure Obs where
  fut : Fut
  pc : Pc
  deriving DecidableEq

/-- Where the caller of a combinator stands: in the loop that starts the
goroutines, at `<-done`, in what follows it, or returned. -/
inductive CallerPc (R : Type) where
  | spawn (idx : Nat)
  | wait
  | test
  | clear
  | ret
  | returned (r : R)
  deriving DecidableEq

/-- What the call returned, when it has. -/
def CallerPc.result {R : Type} : CallerPc R → Option R
  | CallerPc.returned r => some r
  | _ => none

/-- The `select` of a goroutine: the value or error received is kept for the
assignment that follows. -/
def Obs.doSelect (pick : Bool) (o : Obs) : Option Obs :=
  match selectSettle pick o.fut.p with
  | none => none
  | some (q, Sum.inl val) => some { fut := { o.fut with p := q }, pc := Pc.setVal val }
  | some (q, Sum.inr err) => some { fut := { o.fut with p := q }, pc := Pc.setErr err }

/-! ## All -/

/-- The function `All(futures...)` under way. -/
structure AllSt where
  obs : List Obs
  result : List Val
  err : Err
  done : ChanRef Bool
  count : Nat
  caller : CallerPc (List Val × Err)
  deriving DecidableEq

namespace All

/-- Entering `All`. -/
def init (futures : List Fut) : AllSt :=
  { obs := futures.map fun f => { fut := f, pc := Pc.select },
    result := List.replicate futures.length none,
    err := none, done := make Bool 1, count := 0, caller := CallerPc.spawn 0 }

/-- Goroutines started so far by `for idx := range futures`. -/
def spawned (s : AllSt) : Nat :=
  match s.caller with
  | CallerPc.spawn idx => idx
  | _ => s.obs.length

/-- One step of goroutine `idx`:
`select` / `result[idx] = val` / `err = ...` / `done <- true` /
`atomic.AddInt32(&count, 1)` / `atomic.LoadInt32(&count) == int32(len(futures))` /
`done <- true`. -/
def stepObs (pick : Bool) (idx : Nat) (s : AllSt) (o : Obs) : Option (AllSt × Obs) :=
  match o.pc with
  | Pc.select => (o.doSelect pick).map fun o => (s, o)
  | Pc.setVal val => some ({ s with result := s.result.set idx val }, { o with pc := Pc.add })
  | Pc.setErr err => some ({ s with err := err }, { o with pc := Pc.doneEarly })
  | Pc.doneEarly => (send s.done true).map fun c => ({ s with done := c }, { o with pc := Pc.add })
  | Pc.add => some ({ s with count := int32 (s.count + 1) }, { o with pc := Pc.load })
  | Pc.load => some (s, { o with pc := if s.count = int32 s.obs.length then Pc.doneAll else Pc.exit })
  | Pc.doneAll => (send s.done true).map fun c => ({ s with done := c }, { o with pc := Pc.exit })
  | Pc.exit => none

/-- One step of `All`: a producer, a started goroutine, or the caller
(`go func(idx)`, `<-done`, `return result, err`). -/
def step : Label → AllSt → Option AllSt
  | Label.producer i, s =>
    match s.obs[i]? with
    | none => none
    | some o => o.fut.produce.map fun g => { s with obs := s.obs.set i { o with fut := g } }
  | Label.observer i pick, s =>
    if i < spawned s then
      match s.obs[i]? with
      | none => none
      | some o => (stepObs pick i s o).map fun x => { x.1 with obs := x.1.obs.set i x.2 }
    else none
  | Label.caller _, s =>
    match s.caller with
    | CallerPc.spawn idx =>
      if idx < s.obs.length then some { s with caller := CallerPc.spawn (idx + 1) }
      else some { s with caller := CallerPc.wait }
    | CallerPc.wait => (recv s.done).map fun x => { s with done := x.2, caller := CallerPc.ret }
    | CallerPc.ret => some { s with caller := CallerPc.returned (s.result, s.err) }
    | _ => none

end All

/-! ## Race -/

/-- The function `Race(futures...)` under way. -/
structure RaceSt where
  obs : List Obs
  val : Val
  err : Err
  done : ChanRef Bool
  caller : CallerPc (Val × Err)
  deriving DecidableEq

namespace Race

/-- Entering `Race`. -/
def init (futures : List Fut) : RaceSt :=
  { obs := futures.map fun f => { fut := f, pc := Pc.select },
    val := none, err := none, done := make Bool 1, caller := CallerPc.spawn 0 }

/-- Goroutines started so far by `for idx := range futures`. -/
def spawned (s : RaceSt) : Nat :=
  match s.caller with
  | CallerPc.spawn idx => idx
  | _ => s.obs.length

/-- One step of a goroutine: `select` / `val = ...` or `err = ...` / `done <- true`. -/
def stepObs (pick : Bool) (s : RaceSt) (o : Obs) : Option (RaceSt × Obs) :=
  match o.pc with
  | Pc.select => (o.doSelect pick).map fun o => (s, o)
  | Pc.setVal val => some ({ s with val := val }, { o with pc := Pc.doneEarly })
  | Pc.setErr err => some ({ s with err := err }, { o with pc := Pc.doneEarly })
  | Pc.doneEarly => (send s.done true).map fun c => ({ s with done := c }, { o with pc := Pc.exit })
  | _ => none

/-- One step of `Race`: a producer, a started goroutine, or the caller
(`go func(idx)`, `<-done`, `return val, err`). -/
def step : Label → RaceSt → Option RaceSt
  | Label.producer i, s =>
    match s.obs[i]? with
    | none => none
    | some o => o.fut.produce.map fun g => { s with obs := s.obs.set i { o with fut := g } }
  | Label.observer i pick, s =>
    if i < spawned s then
      match s.obs[i]? with
      | none => none
      | some o => (stepObs pick s o).map fun x => { x.1 with obs := x.1.obs.set i x.2 }
    else none
  | Label.caller _, s =>
    match s.caller with
    | CallerPc.spawn idx =>
      if idx < s.obs.length then some { s with caller := CallerPc.spawn (idx + 1) }
      else some { s with caller := CallerPc.wait }
    | CallerPc.wait => (recv s.done).map fun x => { s with done := x.2, caller := CallerPc.ret }
    | CallerPc.ret => some { s with caller := CallerPc.returned (s.val, s.err) }
    | _ => none

end Race

/-! ## Any -/

/-- The function `Any(futures...)` under way. -/
structure AnySt where
  obs : List Obs
  val : Val
  err : Err
  done : ChanRef Bool
  count : Nat
  caller : CallerPc (Val × Err)
  deriving DecidableEq

namespace Any

/-- Entering `Any`. -/
def init (futures : List Fut) : AnySt :=
  { obs := futures.map fun f => { fut := f, pc := Pc.select },
    val := none, err := none, done := make Bool 1, count := 0, caller := CallerPc.spawn 0 }

/-- Goroutines started so far by `for idx := range futures`. -/
def spawned (s : AnySt) : Nat :=
  match s.caller with
  | CallerPc.spawn idx => idx
  | _ => s.obs.length

/-- One step of a goroutine: `select` / `val = ...` then `done <- true`, or
`err = ...` / `atomic.AddInt32(&count, 1)` /
`atomic.LoadInt32(&count) == int32(len(futures))` / `done <- true`. -/
def stepObs (pick : Bool) (s : AnySt) (o : Obs) : Option (AnySt × Obs) :=
  match o.pc with
  | Pc.select => (o.doSelect pick).map fun o => (s, o)
  | Pc.setVal val => some ({ s with val := val }, { o with pc := Pc.doneEarly })
  | Pc.setErr err => some ({ s with err := err }, { o with pc := Pc.add })
  | Pc.doneEarly => (send s.done true).map fun c => ({ s with done := c }, { o with pc := Pc.add })
  | Pc.add => some ({ s with count := int32 (s.count + 1) }, { o with pc := Pc.load })
  | Pc.load => some (s, { o with pc := if s.count = int32 s.obs.length then Pc.doneAll else Pc.exit })
  | Pc.doneAll => (send s.done true).map fun c => ({ s with done := c }, { o with pc := Pc.exit })
  | Pc.exit => none

/-- One step of `Any`: a producer, a started goroutine, or the caller
(`go func(idx)`, `<-done`, `if val != nil`, `err = nil`, `return val, err`). -/
def step : Label → AnySt → Option AnySt
  | Label.producer i, s =>
    match s.obs[i]? with
    | none => none
    | some o => o.fut.produce.map fun g => { s with obs := s.obs.set i { o with fut := g } }
  | Label.observer i pick, s =>
    if i < spawned s then
      match s.obs[i]? with
      | none => none
      | some o => (stepObs pick s o).map fun x => { x.1 with obs := x.1.obs.set i x.2 }
    else none
  | Label.caller _, s =>
    match s.caller with
    | CallerPc.spawn idx =>
      if idx < s.obs.length then some { s with caller := CallerPc.spawn (idx + 1) }
      else some { s with caller := CallerPc.wait }
    | CallerPc.wait => (recv s.done).map fun x => { s with done := x.2, caller := CallerPc.test }
    | CallerPc.test =>
      some { s with caller := if s.val ≠ none then CallerPc.clear else CallerPc.ret }
    | CallerPc.clear => some { s with err := none, caller := CallerPc.ret }
    | CallerPc.ret => some { s with caller := CallerPc.returned (s.val, s.err) }
    | CallerPc.returned _ => none

end Any

/-! ## Map -/

/-- Where a worker goroutine of `Map` stands; from the receive of `idx` to the
assignment of what was read, the index of its job is with it. -/
inductive WPc where
  | range
  | call (idx : Nat)
  | select (idx : Nat)
  | setVal (idx : Nat) (val : Val)
  | setErr (err : Err)
  | doneEarly
  | add
  | load
  | doneAll
  | exit
  deriving DecidableEq

/-- A worker goroutine of `Map` with `p`, the promise of its current job, and
that promise's producer. -/
structure Worker where
  pc : WPc
  fut : Option Fut
  deriving DecidableEq

/-- Where the caller of `Map` stands: starting the workers, filling `jobs`,
at `close(jobs)`, at `<-done`, at the `return`, or returned. -/
inductive MapPc where
  | spawn (i : Nat)
  | push (idx : Nat)
  | close
  | wait
  | ret
  | returned (r : List Val × Err)
  deriving DecidableEq

/-- What the call of `Map` returned, when it has. -/
def MapPc.result : MapPc → Option (List Val × Err)
  | MapPc.returned r => some r
  | _ => none

/-- The function `Map(input, mapper, concurrency)` under way. -/
structure MapSt where
  workers : List Worker
  result : List Val
  err : Err
  done : ChanRef Bool
  jobs : ChanRef Nat
  closed : Bool
  count : Nat
  caller : MapPc
  deriving DecidableEq

namespace Map

/-- Entering `Map` with an input of length `n`. -/
def init (n : Nat) : MapSt :=
  { workers := [], result := List.replicate n none, err := none,
    done := make Bool 1, jobs := make Nat n, closed := false, count := 0,
    caller := MapPc.spawn 0 }

/-- One step of a worker: `for idx := range jobs` / `p := mapper(input[idx])` /
`select` / `result[idx] = val` or `err = ...` then `done <- true` /
`atomic.AddInt32(&count, 1)` / `atomic.LoadInt32(&count) == int32(len(input))` /
`done <- true`, and back to the head of the loop. -/
def stepWorker {T : Type} (input : List T) (mapper : T → Fut) (pick : Bool)
    (s : MapSt) (w : Worker) : Option (MapSt × Worker) :=
  match w.pc with
  | WPc.range =>
    match recv s.jobs with
    | some (idx, c) => some ({ s with jobs := c }, { w with pc := WPc.call idx })
    | none => if s.closed then some (s, { w with pc := WPc.exit }) else none
  | WPc.call idx =>
    match input[idx]? with
    | none => none
    | some x => some (s, { pc := WPc.select idx, fut := some (mapper x) })
  | WPc.select idx =>
    match w.fut with
    | none => none
    | some f =>
      match selectSettle pick f.p with
      | none => none
      | some (q, Sum.inl val) => some (s, { pc := WPc.setVal idx val, fut := some { f with p := q } })
      | some (q, Sum.inr err) => some (s, { pc := WPc.setErr err, fut := some { f with p := q } })
  | WPc.setVal idx val => some ({ s with result := s.result.set idx val }, { w with pc := WPc.add })
  | WPc.setErr err => some ({ s with err := err }, { w with pc := WPc.doneEarly })
  | WPc.doneEarly => (send s.done true).map fun c => ({ s with done := c }, { w with pc := WPc.add })
  | WPc.add => some ({ s with count := int32 (s.count + 1) }, { w with pc := WPc.load })
  | WPc.load => some (s, { w with pc := if s.count = int32 input.length then WPc.doneAll else WPc.range })
  | WPc.doneAll => (send s.done true).map fun c => ({ s with done := c }, { w with pc := WPc.range })
  | WPc.exit => none

/-- One step of `Map`: the producer of a worker's promise, a worker, or the
caller (`go func()`, `jobs <- idx`, `close(jobs)`, `<-done`,
`return result, err`). -/
def step {T : Type} (input : List T) (mapper : T → Fut) (concurrency : Int) :
    Label → MapSt → Option MapSt
  | Label.producer i, s =>
    match s.workers[i]? with
    | none => none
    | some w =>
      match w.fut with
      | none => none
      | some f => f.produce.map fun g => { s with workers := s.workers.set i { w with fut := some g } }
  | Label.observer i pick, s =>
    match s.workers[i]? with
    | none => none
    | some w =>
      (stepWorker input mapper pick s w).map fun x => { x.1 with workers := x.1.workers.set i x.2 }
  | Label.caller _, s =>
    match s.caller with
    | MapPc.spawn i =>
      if (i : Int) < concurrency then
        some { s with workers := s.workers ++ [{ pc := WPc.range, fut := none }],
                      caller := MapPc.spawn (i + 1) }
      else some { s with caller := MapPc.push 0 }
    | MapPc.push idx =>
      if idx < input.length then
        (send s.jobs idx).map fun c => { s with jobs := c, caller := MapPc.push (idx + 1) }
      else some { s with caller := MapPc.close }
    | MapPc.close => some { s with closed := true, caller := MapPc.wait }
    | MapPc.wait => (recv s.done).map fun x => { s with done := x.2, caller := MapPc.ret }
    | MapPc.ret => some { s with caller := MapPc.returned (s.result, s.err) }
    | MapPc.returned _ => none

end Map

/-! ## States met in the proofs -/

namespace AwaitSt

/-- The promise `New [w]` once its producer has written. -/
def written (w : Write) : Fut :=
  match w with
  | Write.resolve v => { p := { (New [w]).p with resolve := some ⟨1, [v]⟩ }, prod := [] }
  | Write.reject e => { p := { (New [w]).p with reject := some ⟨1, [e]⟩ }, prod := [] }

/-- The promise `New [w]` after its first `Await` has returned. -/
def settled (w : Write) : Fut :=
  match w with
  | Write.resolve v =>
    { p := { (New [w]).p with val := v, State := State.StateFulfilled }, prod := [] }
  | Write.reject e =>
    { p := { (New [w]).p with err := e, State := State.StateRejected }, prod := [] }

/-- The pair of the outcome `w`: `(v, nil)` for a value, `(nil, e)` for an error. -/
def outcome (w : Write) : Val × Err :=
  match w with
  | Write.resolve v => (v, none)
  | Write.reject e => (none, e)

end AwaitSt


/-- Sum of the writes the producers of `fs` have still to make. -/
def pendingWrites (fs : List Fut) : Nat := (fs.map fun f => f.prod.length).sum

namespace AllSettled

/-- The promise `New [w]` after its outcome has been read from its channel by
a `select` outside `Await`: the fields are as `New` left them. -/
def consumed (w : Write) : Fut := { p := (New [w]).p, prod := [] }

/-- Entry `i` of `futures`, `result` and `reasons` when the loop stands at `idx`. -/
def SlotOk (idx i : Nat) (w : Write) (f : Fut) (r : Val) (e : Err) : Prop :=
  if i < idx then f = consumed w ∧ r = (AwaitSt.outcome w).1 ∧ e = (AwaitSt.outcome w).2
  else (f = New [w] ∨ f = AwaitSt.written w) ∧ r = none ∧ e = none

/-- What holds of every state of `AllSettled` on promises with the outcomes `ws`. -/
def Inv (ws : List Write) (s : AllSettledSt) : Prop :=
  s.futures.length = ws.length ∧ s.result.length = ws.length ∧
  s.reasons.length = ws.length ∧ s.idx ≤ ws.length ∧
  (∀ i w, ws[i]? = some w → ∃ f r e, s.futures[i]? = some f ∧ s.result[i]? = some r ∧
    s.reasons[i]? = some e ∧ SlotOk s.idx i w f r e) ∧
  (s.ret = none ∨ (s.idx = ws.length ∧ s.ret = some (s.result, s.reasons)))

/-- Steps left at most: writes pending, iterations left, and the return. -/
def measure (s : AllSettledSt) : Nat :=
  pendingWrites s.futures + (s.futures.length - s.idx) + (if s.ret = none then 1 else 0)

end AllSettled


namespace All

/-- Goroutines that have run `atomic.AddInt32(&count, 1)`. -/
def pastAdd : Pc → Bool
  | Pc.load => true
  | Pc.doneAll => true
  | Pc.exit => true
  | _ => false

/-- Goroutines past the `done <- true` of the reject case. -/
def pastDone : Pc → Bool
  | Pc.add => true
  | Pc.load => true
  | Pc.doneAll => true
  | Pc.exit => true
  | _ => false

/-- Goroutines past the assignment `err = ...` of the reject case. -/
def pastSetErr : Pc → Bool
  | Pc.select => false
  | Pc.setVal _ => false
  | Pc.setErr _ => false
  | _ => true

/-- Steps a goroutine has still to make, at most. -/
def weight : Pc → Nat
  | Pc.select => 7
  | Pc.setVal _ => 4
  | Pc.setErr _ => 5
  | Pc.doneEarly => 4
  | Pc.add => 3
  | Pc.load => 2
  | Pc.doneAll => 1
  | Pc.exit => 0

/-- Steps the caller has still to make, at most, with `n` goroutines to start. -/
def callerWeight {R : Type} (n : Nat) : CallerPc R → Nat
  | CallerPc.spawn idx => (n - idx) + 5
  | CallerPc.wait => 4
  | CallerPc.test => 3
  | CallerPc.clear => 2
  | CallerPc.ret => 1
  | CallerPc.returned _ => 0

/-- Steps left at most, over all goroutines. -/
def measure (s : AllSt) : Nat :=
  callerWeight s.obs.length s.caller +
    (s.obs.map fun o => weight o.pc + o.fut.prod.length).sum

/-- The caller has received from `done`. -/
def pastWait {R : Type} : CallerPc R → Bool
  | CallerPc.spawn _ => false
  | CallerPc.wait => false
  | _ => true

/-- Something has been sent on `done`. -/
def DoneSet (s : AllSt) : Prop := s.done = some ⟨1, [true]⟩ ∨ pastWait s.caller = true

/-- The promise and the place of a goroutine whose producer writes `w`. -/
def Shape (w : Write) (o : Obs) : Prop :=
  match o.pc with
  | Pc.select => o.fut = New [w] ∨ o.fut = AwaitSt.written w
  | Pc.setVal v => o.fut = AllSettled.consumed w ∧ w = Write.resolve v
  | Pc.setErr e => o.fut = AllSettled.consumed w ∧ w = Write.reject e
  | Pc.doneEarly => o.fut = AllSettled.consumed w ∧ ∃ e, w = Write.reject e
  | _ => o.fut = AllSettled.consumed w

/-- What holds of a goroutine of `All`, `E` being the errors producers reject
with, `errSet` that `err` is not nil, `doneSet` that `done` has been sent on. -/
def SlotInv (E : Err → Prop) (errSet doneSet : Prop) (o : Obs) : Prop :=
  ∃ w, (∀ e, w = Write.reject e → E e) ∧ Shape w o ∧
    (o.pc = Pc.doneAll → errSet) ∧
    ((∃ e, w = Write.reject e) → pastSetErr o.pc = true → errSet) ∧
    ((∃ e, w = Write.reject e) → pastDone o.pc = true → doneSet)

/-- The promise of the goroutine is one whose producer rejects. -/
def Rej (o : Obs) : Prop := ∃ e, o.fut.p.resolver = some [Write.reject e]

/-- What holds of every state of `All` when some promise rejects and every
rejection is with an error in `E`. -/
def Inv (E : Err → Prop) (s : AllSt) : Prop :=
  (∀ o ∈ s.obs, SlotInv E (s.err ≠ none) (DoneSet s) o) ∧
  (∃ o ∈ s.obs, Rej o) ∧
  s.count = s.obs.countP (fun o => pastAdd o.pc) ∧
  (s.err = none ∨ E s.err) ∧
  (DoneSet s → s.err ≠ none) ∧
  (∀ r, s.caller = CallerPc.returned r → E r.2) ∧
  (s.done = some ⟨1, []⟩ ∨ s.done = some ⟨1, [true]⟩) ∧
  s.caller ≠ CallerPc.test ∧ s.caller ≠ CallerPc.clear

end All


/-- The state of `All` on promises made by `Resolve`, the caller at `c`. -/
def All.onResolved (vs : List Val) (c : CallerPc (List Val × Err)) : AllSt :=
  { obs := (vs.map Resolve).map fun f => { fut := f, pc := Pc.select },
    result := List.replicate (vs.map Resolve).length none,
    err := none, done := make Bool 1, count := 0, caller := c }


namespace Map

/-- The indices waiting in `jobs`. -/
def queued (s : MapSt) : List Nat :=
  match s.jobs with
  | some c => c.buf
  | none => []

/-- A worker that has taken a job and not yet counted it. -/
def inflight : WPc → Bool
  | WPc.call _ => true
  | WPc.select _ => true
  | WPc.setVal _ _ => true
  | WPc.setErr _ => true
  | WPc.doneEarly => true
  | WPc.add => true
  | _ => false

/-- A worker that has job `i` and has not yet written `result[i]`. -/
def holds (i : Nat) : WPc → Prop
  | WPc.call idx => idx = i
  | WPc.select idx => idx = i
  | WPc.setVal idx _ => idx = i
  | _ => False

/-- How many indices the caller has sent on `jobs`, of `n`. -/
def pushed (n : Nat) : MapPc → Nat
  | MapPc.spawn _ => 0
  | MapPc.push idx => idx
  | _ => n

/-- The caller has received from `done`. -/
def pastWait : MapPc → Bool
  | MapPc.ret => true
  | MapPc.returned _ => true
  | _ => false

/-- The caller has closed `jobs`. -/
def pastClose : MapPc → Bool
  | MapPc.wait => true
  | MapPc.ret => true
  | MapPc.returned _ => true
  | _ => false

/-- Something has been sent on `done`. -/
def DoneSet (s : MapSt) : Prop := s.done = some ⟨1, [true]⟩ ∨ pastWait s.caller = true

/-- What holds of a worker when every promise of the mapper fulfils, `f x`
being the value `mapper x` fulfils with. -/
def WShape {T : Type} (input : List T) (f : T → Val) (s : MapSt) (w : Worker) : Prop :=
  match w.pc with
  | WPc.call idx => idx < input.length
  | WPc.select idx =>
    ∃ x, input[idx]? = some x ∧
      (w.fut = some (New [Write.resolve (f x)]) ∨
       w.fut = some (AwaitSt.written (Write.resolve (f x))))
  | WPc.setVal idx v => ∃ x, input[idx]? = some x ∧ v = f x
  | WPc.setErr _ => False
  | WPc.doneEarly => False
  | WPc.doneAll => s.count = input.length
  | WPc.exit => s.closed = true ∧ s.jobs = some ⟨input.length, []⟩
  | _ => True

/-- What holds of every state of `Map` when every promise of the mapper fulfils. -/
structure Inv {T : Type} (input : List T) (f : T → Val) (s : MapSt) : Prop where
  shape : ∀ w ∈ s.workers, WShape input f s w
  jobs : ∃ buf, s.jobs = some ⟨input.length, buf⟩ ∧ ∀ i ∈ buf, i < input.length
  counting : pushed input.length s.caller =
    s.count + (queued s).length + s.workers.countP (fun w => inflight w.pc)
  pushedLe : ∀ idx, s.caller = MapPc.push idx → idx ≤ input.length
  resultLen : s.result.length = input.length
  settled : ∀ (i : Nat) (x : T), input[i]? = some x →
    s.result[i]? = some (f x) ∨ pushed input.length s.caller ≤ i ∨ i ∈ queued s ∨
      ∃ w ∈ s.workers, holds i w.pc
  err : s.err = none
  done : s.done = some ⟨1, []⟩ ∨ s.done = some ⟨1, [true]⟩
  doneCount : DoneSet s → s.count = input.length
  signal : s.count = input.length →
    (∃ w ∈ s.workers, w.pc = WPc.load ∨ w.pc = WPc.doneAll) ∨ DoneSet s
  closed : s.closed = pastClose s.caller
  spawning : ∀ i, s.caller = MapPc.spawn i → s.workers.length = i
  started : (∀ i, s.caller ≠ MapPc.spawn i) → s.workers ≠ []
  returned : ∀ r, s.caller = MapPc.returned r → r = (input.map f, none)

/-- Steps a worker has still to make before it is back at the head of its loop. -/
def weight : WPc → Nat
  | WPc.exit => 0
  | WPc.range => 1
  | WPc.doneAll => 2
  | WPc.load => 3
  | WPc.add => 4
  | WPc.doneEarly => 5
  | WPc.setErr _ => 6
  | WPc.setVal _ _ => 5
  | WPc.select _ => 7
  | WPc.call _ => 9

/-- Writes the producer of a worker's promise has still to make. -/
def prodLen : Option Fut → Nat
  | some f => f.prod.length
  | none => 0

/-- Steps the caller has still to make, with what they let the workers do. -/
def callerWeight (n c : Nat) : MapPc → Nat
  | MapPc.spawn i => 2 * (c - i) + 11 * n + 5
  | MapPc.push idx => 11 * (n - idx) + 4
  | MapPc.close => 3
  | MapPc.wait => 2
  | MapPc.ret => 1
  | MapPc.returned _ => 0

/-- Steps left at most, over all goroutines. -/
def measure (n : Nat) (concurrency : Int) (s : MapSt) : Nat :=
  callerWeight n concurrency.toNat s.caller + 10 * (queued s).length +
    (s.workers.map fun w => weight w.pc + prodLen w.fut).sum

end Map


/-- Where a worker of `Map` can stand when the mapper returns promises made by
`Resolve`: at the head of its loop, with a job, at the `select` on such a
promise, or out of its loop. -/
def Map.Stuck (w : Worker) : Prop :=
  (w.pc = WPc.range ∧ w.fut = none) ∨ (∃ idx, w.pc = WPc.call idx ∧ w.fut = none) ∨
  (∃ idx v, w.pc = WPc.select idx ∧ w.fut = some (Resolve v)) ∨
  (w.pc = WPc.exit ∧ w.fut = none)

/-- What holds of every state of `Map` when the mapper returns promises made
by `Resolve`: nothing is sent on `done` and the caller is not past `<-done`. -/
def Map.StuckInv (s : MapSt) : Prop :=
  s.done = make Bool 1 ∧ (∀ w ∈ s.workers, Map.Stuck w) ∧
  ((∃ i, s.caller = MapPc.spawn i) ∨ (∃ idx, s.caller = MapPc.push idx) ∨
    s.caller = MapPc.close ∨ s.caller = MapPc.wait)

/-! ## Executions -/

theorem Reachable.invariant {L S : Type} {step : L → S → Option S} {init : S} (Inv : S → Prop)
    (h0 : Inv init) (hstep : ∀ s l t, Inv s → step l s = some t → Inv t) :
    ∀ s, Reachable step init s → Inv s := by
  intro s hs
  induction hs with
  | start => exact h0
  | next _ hst ih => exact hstep _ _ _ ih hst

theorem Reachable.of_exec {L S : Type} {step : L → S → Option S} {init : S} :
    ∀ (ls : List L) (s t : S), Reachable step init s → exec step ls s = some t →
      Reachable step init t := by
  intro ls
  induction ls with
  | nil =>
    intro s t hs h
    simp only [exec, Option.some.injEq] at h
    exact h ▸ hs
  | cons l ls ih =>
    intro s t hs h
    simp only [exec] at h
    cases hl : step l s with
    | none => simp [hl] at h
    | some u =>
      rw [hl] at h
      exact ih u t (Reachable.next hs hl) h

/-- A call that returns under every schedule has returned, with a result
satisfying `P`, in every state in which no goroutine can move. -/
theorem Returns.terminal {L S R : Type} {step : L → S → Option S} {ret : S → Option R}
    {init : S} {P : R → Prop} (h : Returns step ret init P) (s : S)
    (hs : Reachable step init s) (hstuck : ∀ l, step l s = none) :
    ∃ r, ret s = some r ∧ P r := by
  cases hr : ret s with
  | some r => exact ⟨r, rfl, h.safe s hs r hr⟩
  | none =>
    obtain ⟨l, t, hst⟩ := h.progress s hs hr
    rw [hstuck l] at hst
    cases hst

/-- A call that returns under every schedule has an execution in which it returns. -/
theorem Returns.reaches {L S R : Type} {step : L → S → Option S} {ret : S → Option R}
    {init : S} {P : R → Prop} (h : Returns step ret init P) :
    ∃ ls t r, exec step ls init = some t ∧ ret t = some r ∧ P r := by
  obtain ⟨μ, hμ⟩ := h.bounded
  have key : ∀ (n : Nat) (s : S), μ s ≤ n → Reachable step init s →
      ∃ ls t r, exec step ls s = some t ∧ ret t = some r ∧ P r := by
    intro n
    induction n with
    | zero =>
      intro s hn hs
      cases hr : ret s with
      | some r => exact ⟨[], s, r, rfl, hr, h.safe s hs r hr⟩
      | none =>
        obtain ⟨l, t, hst⟩ := h.progress s hs hr
        have := hμ s hs l t hst
        omega
    | succ n ih =>
      intro s hn hs
      cases hr : ret s with
      | some r => exact ⟨[], s, r, rfl, hr, h.safe s hs r hr⟩
      | none =>
        obtain ⟨l, t, hst⟩ := h.progress s hs hr
        have hlt := hμ s hs l t hst
        obtain ⟨ls, u, r, h1, h2, h3⟩ := ih t (by omega) (Reachable.next hs hst)
        exact ⟨l :: ls, u, r, by simp [exec, hst, h1], h2, h3⟩
  exact key (μ init) init (Nat.le_refl _) Reachable.start

theorem Fut.produce_prod {f g : Fut} (h : f.produce = some g) :
    g.prod.length + 1 = f.prod.length := by
  unfold Fut.produce at h
  split at h
  · simp at h
  · rename_i v rest hp
    cases hs : send f.p.resolve v with
    | none => simp [hs] at h
    | some c =>
      simp only [hs, Option.map_some', Option.some.injEq] at h
      subst h
      simp [hp]
  · rename_i e rest hp
    cases hs : send f.p.reject e with
    | none => simp [hs] at h
    | some c =>
      simp only [hs, Option.map_some', Option.some.injEq] at h
      subst h
      simp [hp]

/-! ## Await -/

namespace AwaitSt

theorem await_step_measure (s t : AwaitSt) (l : Label) (h : step l s = some t) :
    t.fut.prod.length + t.todo < s.fut.prod.length + s.todo := by
  cases l with
  | producer i =>
    cases i with
    | zero =>
      simp only [step] at h
      cases hp : s.fut.produce with
      | none => simp [hp] at h
      | some g =>
        simp only [hp, Option.map_some', Option.some.injEq] at h
        subst h
        have := Fut.produce_prod hp
        simp only
        omega
    | succ i => simp [step] at h
  | observer i pick => simp [step] at h
  | caller pick =>
    simp only [step] at h
    split at h
    · simp at h
    · rename_i k hk
      cases ha : Await pick s.fut.p with
      | none => simp [ha] at h
      | some x =>
        simp only [ha, Option.map_some', Option.some.injEq] at h
        subst h
        simp only
        omega

theorem await_reach_one (w : Write) (s : AwaitSt)
    (hs : Reachable step (init (New [w]) 1) s) :
    s = init (New [w]) 1 ∨ s = init (written w) 1 ∨
      s = { fut := settled w, todo := 0, rets := [outcome w] } := by
  refine Reachable.invariant (fun s => s = init (New [w]) 1 ∨ s = init (written w) 1 ∨
      s = { fut := settled w, todo := 0, rets := [outcome w] }) (Or.inl rfl) ?_ s hs
  intro s l t hinv hst
  rcases hinv with rfl | rfl | rfl
  · right; left
    cases l with
    | producer i =>
      cases i with
      | zero =>
        cases w <;>
          simp [step, init, New, Fut.produce, send, make, written] at hst ⊢ <;>
          exact hst.symm
      | succ i => simp [step] at hst
    | observer i pick => simp [step] at hst
    | caller pick =>
      simp [step, init, New, Await, selectSettle, recv, make] at hst
  · right; right
    cases l with
    | producer i =>
      cases i with
      | zero => cases w <;> simp [step, init, Fut.produce, written] at hst
      | succ i => simp [step] at hst
    | observer i pick => simp [step] at hst
    | caller pick =>
      cases w <;>
        simp [step, init, New, Await, selectSettle, recv, make, written, settled, outcome] at hst ⊢ <;>
        exact hst.symm
  · right; right
    cases l with
    | producer i =>
      cases i with
      | zero => cases w <;> simp [step, Fut.produce, settled] at hst
      | succ i => simp [step] at hst
    | observer i pick => simp [step] at hst
    | caller pick => simp [step] at hst

theorem await_reach_two_nil (s : AwaitSt)
    (hs : Reachable step (init (New [Write.resolve none]) 2) s) :
    s = init (New [Write.resolve none]) 2 ∨ s = init (written (Write.resolve none)) 2 ∨
      s = { fut := settled (Write.resolve none), todo := 1, rets := [(none, none)] } := by
  refine Reachable.invariant (fun s => s = init (New [Write.resolve none]) 2 ∨
      s = init (written (Write.resolve none)) 2 ∨
      s = { fut := settled (Write.resolve none), todo := 1, rets := [(none, none)] })
    (Or.inl rfl) ?_ s hs
  intro s l t hinv hst
  rcases hinv with rfl | rfl | rfl
  · right; left
    cases l with
    | producer i =>
      cases i with
      | zero =>
        simp [step, init, New, Fut.produce, send, make, written] at hst ⊢
        exact hst.symm
      | succ i => simp [step] at hst
    | observer i pick => simp [step] at hst
    | caller pick =>
      simp [step, init, New, Await, selectSettle, recv, make] at hst
  · right; right
    cases l with
    | producer i =>
      cases i with
      | zero => simp [step, init, Fut.produce, written] at hst
      | succ i => simp [step] at hst
    | observer i pick => simp [step] at hst
    | caller pick =>
      simp [step, init, New, Await, selectSettle, recv, make, written, settled] at hst ⊢
      exact hst.symm
  · exfalso
    cases l with
    | producer i =>
      cases i with
      | zero => simp [step, Fut.produce, settled] at hst
      | succ i => simp [step] at hst
    | observer i pick => simp [step] at hst
    | caller pick =>
      simp [step, New, Await, selectSettle, recv, make, settled] at hst

theorem await_reach_resolved_nil (s : AwaitSt)
    (hs : Reachable step (init (Resolve none) 1) s) : s = init (Resolve none) 1 := by
  refine Reachable.invariant (fun s => s = init (Resolve none) 1) rfl ?_ s hs
  intro s l t hinv hst
  subst hinv
  exfalso
  cases l with
  | producer i =>
    cases i with
    | zero => simp [step, init, Fut.produce, Resolve] at hst
    | succ i => simp [step] at hst
  | observer i pick => simp [step] at hst
  | caller pick => simp [step, init, Resolve, Await, selectSettle, recv] at hst

end AwaitSt

/-- C2: a promise made by `New` is pending before any `Await` has returned; when
its producer writes the single value `v` to `resolve`, the first `Await` returns
`(v, nil)` and leaves `State = fulfilled`, `val = v`; when it writes the single
error `e` to `reject`, the first `Await` returns `(nil, e)` and leaves
`State = rejected`, `err = e`.  The call returns under every schedule. -/
theorem await_first_call (w : Write) :
    (New [w]).p.State = State.StatePending ∧
    (∀ s, Reachable AwaitSt.step (AwaitSt.init (New [w]) 1) s → s.rets = [] →
      s.fut.p.State = State.StatePending) ∧
    Returns AwaitSt.step AwaitSt.ret (AwaitSt.init (New [w]) 1) (fun x =>
      match w with
      | Write.resolve v =>
        x.1 = (v, none) ∧ x.2.State = State.StateFulfilled ∧ x.2.val = v
      | Write.reject e =>
        x.1 = (none, e) ∧ x.2.State = State.StateRejected ∧ x.2.err = e) := by
  refine ⟨rfl, ?_, ?_, ?_, ?_⟩
  · intro s hs hr
    rcases AwaitSt.await_reach_one w s hs with rfl | rfl | rfl
    · rfl
    · cases w <;> rfl
    · simp at hr
  · intro s hs r hr
    rcases AwaitSt.await_reach_one w s hs with rfl | rfl | rfl
    · simp [AwaitSt.ret, AwaitSt.init] at hr
    · simp [AwaitSt.ret, AwaitSt.init] at hr
    · cases w <;>
        simp [AwaitSt.ret, AwaitSt.settled, AwaitSt.outcome, New] at hr <;>
        subst hr <;> simp
  · intro s hs hr
    rcases AwaitSt.await_reach_one w s hs with rfl | rfl | rfl
    · refine ⟨Label.producer 0, AwaitSt.init (AwaitSt.written w) 1, ?_⟩
      cases w <;> simp [AwaitSt.step, AwaitSt.init, New, Fut.produce, send, make, AwaitSt.written]
    · refine ⟨Label.caller true, AwaitSt.mk (AwaitSt.settled w) 0 [AwaitSt.outcome w], ?_⟩
      cases w <;>
        simp [AwaitSt.step, AwaitSt.init, New, Await, selectSettle, recv, make,
          AwaitSt.written, AwaitSt.settled, AwaitSt.outcome]
    · simp [AwaitSt.ret] at hr
  · exact ⟨fun s => s.fut.prod.length + s.todo,
      fun s _ l t h => AwaitSt.await_step_measure s t l h⟩

/-- C1, on the code: for the promise `New` makes when the producer writes `nil`
to `resolve`, the first `Await` returns `(nil, nil)` and consumes the value,
after which no goroutine can move, and under no schedule does the second of
two consecutive `Await` calls return. -/
theorem await_twice_nil_blocks :
    (∃ s, Reachable AwaitSt.step (AwaitSt.init (New [Write.resolve none]) 2) s ∧
      s.rets = [(none, none)] ∧ s.todo = 1 ∧ ∀ l, AwaitSt.step l s = none) ∧
    (∀ s, Reachable AwaitSt.step (AwaitSt.init (New [Write.resolve none]) 2) s →
      AwaitSt.ret s = none ∧ s.rets.length < 2) := by
  constructor
  · refine ⟨AwaitSt.mk (AwaitSt.settled (Write.resolve none)) 1 [(none, none)],
      ?_, rfl, rfl, ?_⟩
    · exact Reachable.of_exec [Label.producer 0, Label.caller true] _ _ Reachable.start (by decide)
    · intro l
      cases l with
      | producer i =>
        cases i with
        | zero => simp [AwaitSt.step, Fut.produce, AwaitSt.settled]
        | succ i => simp [AwaitSt.step]
      | observer i pick => simp [AwaitSt.step]
      | caller pick =>
        simp [AwaitSt.step, New, Await, selectSettle, recv, make, AwaitSt.settled]
  · intro s hs
    rcases AwaitSt.await_reach_two_nil s hs with rfl | rfl | rfl <;>
      simp [AwaitSt.ret, AwaitSt.init]

/-- For a settlement value or error that is not nil, two consecutive `Await`
calls both return, under every schedule, and both return the outcome: the
second call is served from the cached fields. -/
theorem await_twice_same (w : Write) (hw : AwaitSt.outcome w ≠ (none, none)) :
    Returns AwaitSt.step (fun s => if s.todo = 0 then some s.rets else none)
      (AwaitSt.init (New [w]) 2) (fun rets => rets = [AwaitSt.outcome w, AwaitSt.outcome w]) := by
  have reach : ∀ s, Reachable AwaitSt.step (AwaitSt.init (New [w]) 2) s →
      s = AwaitSt.init (New [w]) 2 ∨ s = AwaitSt.init (AwaitSt.written w) 2 ∨
      s = AwaitSt.mk (AwaitSt.settled w) 1 [AwaitSt.outcome w] ∨
      s = AwaitSt.mk (AwaitSt.settled w) 0 [AwaitSt.outcome w, AwaitSt.outcome w] := by
    intro s hs
    refine Reachable.invariant (fun s => s = AwaitSt.init (New [w]) 2 ∨
      s = AwaitSt.init (AwaitSt.written w) 2 ∨
      s = AwaitSt.mk (AwaitSt.settled w) 1 [AwaitSt.outcome w] ∨
      s = AwaitSt.mk (AwaitSt.settled w) 0 [AwaitSt.outcome w, AwaitSt.outcome w])
      (Or.inl rfl) ?_ s hs
    intro s l t hinv hst
    rcases hinv with rfl | rfl | rfl | rfl
    · right; left
      cases l with
      | producer i =>
        cases i with
        | zero =>
          cases w <;>
            simp [AwaitSt.step, AwaitSt.init, New, Fut.produce, send, make, AwaitSt.written]
              at hst ⊢ <;>
            exact hst.symm
        | succ i => simp [AwaitSt.step] at hst
      | observer i pick => simp [AwaitSt.step] at hst
      | caller pick =>
        simp [AwaitSt.step, AwaitSt.init, New, Await, selectSettle, recv, make] at hst
    · right; right; left
      cases l with
      | producer i =>
        cases i with
        | zero => cases w <;> simp [AwaitSt.step, AwaitSt.init, Fut.produce, AwaitSt.written] at hst
        | succ i => simp [AwaitSt.step] at hst
      | observer i pick => simp [AwaitSt.step] at hst
      | caller pick =>
        cases w <;>
          simp [AwaitSt.step, AwaitSt.init, New, Await, selectSettle, recv, make,
            AwaitSt.written, AwaitSt.settled, AwaitSt.outcome] at hst ⊢ <;>
          exact hst.symm
    · right; right; right
      cases l with
      | producer i =>
        cases i with
        | zero => cases w <;> simp [AwaitSt.step, Fut.produce, AwaitSt.settled] at hst
        | succ i => simp [AwaitSt.step] at hst
      | observer i pick => simp [AwaitSt.step] at hst
      | caller pick =>
        cases w with
        | resolve v =>
          have hv : v ≠ none := by simpa [AwaitSt.outcome] using hw
          simp [AwaitSt.step, New, Await, AwaitSt.settled, AwaitSt.outcome, hv] at hst ⊢
          exact hst.symm
        | reject e =>
          have he : e ≠ none := by simpa [AwaitSt.outcome] using hw
          simp [AwaitSt.step, New, Await, AwaitSt.settled, AwaitSt.outcome, he] at hst ⊢
          exact hst.symm
    · exfalso
      cases l with
      | producer i =>
        cases i with
        | zero => cases w <;> simp [AwaitSt.step, Fut.produce, AwaitSt.settled] at hst
        | succ i => simp [AwaitSt.step] at hst
      | observer i pick => simp [AwaitSt.step] at hst
      | caller pick => simp [AwaitSt.step] at hst
  refine ⟨?_, ?_, ?_⟩
  · intro s hs r hr
    rcases reach s hs with rfl | rfl | rfl | rfl <;> simp [AwaitSt.init] at hr
    exact hr.symm
  · intro s hs hr
    rcases reach s hs with rfl | rfl | rfl | rfl
    · refine ⟨Label.producer 0, AwaitSt.init (AwaitSt.written w) 2, ?_⟩
      cases w <;> simp [AwaitSt.step, AwaitSt.init, New, Fut.produce, send, make, AwaitSt.written]
    · refine ⟨Label.caller true, AwaitSt.mk (AwaitSt.settled w) 1 [AwaitSt.outcome w], ?_⟩
      cases w <;>
        simp [AwaitSt.step, AwaitSt.init, New, Await, selectSettle, recv, make,
          AwaitSt.written, AwaitSt.settled, AwaitSt.outcome]
    · refine ⟨Label.caller true,
        AwaitSt.mk (AwaitSt.settled w) 0 [AwaitSt.outcome w, AwaitSt.outcome w], ?_⟩
      cases w with
      | resolve v =>
        have hv : v ≠ none := by simpa [AwaitSt.outcome] using hw
        simp [AwaitSt.step, New, Await, AwaitSt.settled, AwaitSt.outcome, hv]
      | reject e =>
        have he : e ≠ none := by simpa [AwaitSt.outcome] using hw
        simp [AwaitSt.step, New, Await, AwaitSt.settled, AwaitSt.outcome, he]
    · simp at hr
  · exact ⟨fun s => s.fut.prod.length + s.todo,
      fun s _ l t h => AwaitSt.await_step_measure s t l h⟩

/-- For a value `v` that is not nil, `Await` on `Resolve(v)` returns `(v, nil)`
at once and leaves the promise as it is, in state fulfilled. -/
theorem resolve_await_nonnil (pick : Bool) (k : Nat) :
    Await pick (Resolve (some k)).p = some ((some k, none), (Resolve (some k)).p) ∧
    (Resolve (some k)).p.State = State.StateFulfilled := by
  simp [Await, Resolve]

/-- C9, on the code: `Resolve(nil)` is in state fulfilled, yet `Await` on it
blocks (both channels are nil) and under no schedule returns, while `Await` on
`New(r)`, with `r` writing `nil` to `resolve`, returns `(nil, nil)`. -/
theorem resolve_nil_await_blocks :
    (Resolve none).p.State = State.StateFulfilled ∧
    (∀ pick, Await pick (Resolve none).p = none) ∧
    (∀ s, Reachable AwaitSt.step (AwaitSt.init (Resolve none) 1) s →
      AwaitSt.ret s = none ∧ ∀ l, AwaitSt.step l s = none) ∧
    (∃ s, Reachable AwaitSt.step (AwaitSt.init (New [Write.resolve none]) 1) s ∧
      (AwaitSt.ret s).map Prod.fst = some (none, none)) := by
  refine ⟨rfl, ?_, ?_, ?_⟩
  · intro pick
    simp [Await, Resolve, selectSettle, recv]
  · intro s hs
    have h := AwaitSt.await_reach_resolved_nil s hs
    subst h
    refine ⟨by simp [AwaitSt.ret, AwaitSt.init], ?_⟩
    intro l
    cases l with
    | producer i =>
      cases i with
      | zero => simp [AwaitSt.step, AwaitSt.init, Fut.produce, Resolve]
      | succ i => simp [AwaitSt.step]
    | observer i pick => simp [AwaitSt.step]
    | caller pick => simp [AwaitSt.step, AwaitSt.init, Resolve, Await, selectSettle, recv]
  · exact ⟨_, Reachable.of_exec [Label.producer 0, Label.caller true] _ _ Reachable.start rfl,
      by decide⟩

/-! ## AllSettled -/

theorem sum_map_set {α : Type} (f : α → Nat) :
    ∀ (l : List α) (i : Nat) (a x : α), l[i]? = some x →
      ((l.set i a).map f).sum + f x = (l.map f).sum + f a := by
  intro l
  induction l with
  | nil => intro i a x h; simp at h
  | cons y ys ih =>
    intro i a x h
    cases i with
    | zero =>
      simp only [List.getElem?_cons_zero, Option.some.injEq] at h
      subst h
      simp only [List.set_cons_zero, List.map_cons, List.sum_cons]
      omega
    | succ i =>
      simp only [List.getElem?_cons_succ] at h
      have := ih i a x h
      simp only [List.set_cons_succ, List.map_cons, List.sum_cons]
      omega

theorem pendingWrites_set (fs : List Fut) (i : Nat) (f g : Fut) (h : fs[i]? = some f)
    (hp : f.produce = some g) : pendingWrites (fs.set i g) < pendingWrites fs := by
  have h1 := sum_map_set (fun f : Fut => f.prod.length) fs i g f h
  have h2 := Fut.produce_prod hp
  unfold pendingWrites
  simp only at h1
  omega

theorem pendingWrites_set_prod (fs : List Fut) (i : Nat) (f g : Fut) (h : fs[i]? = some f)
    (hp : g.prod = f.prod) : pendingWrites (fs.set i g) = pendingWrites fs := by
  have h1 := sum_map_set (fun f : Fut => f.prod.length) fs i g f h
  unfold pendingWrites
  simp only [hp] at h1
  omega

theorem produce_new (w : Write) : (New [w]).produce = some (AwaitSt.written w) := by
  cases w <;> simp [New, Fut.produce, send, make, AwaitSt.written]

theorem produce_written (w : Write) : (AwaitSt.written w).produce = none := by
  cases w <;> simp [Fut.produce, AwaitSt.written]

theorem produce_consumed (w : Write) : (AllSettled.consumed w).produce = none := by
  simp [Fut.produce, AllSettled.consumed]

theorem select_new (pick : Bool) (w : Write) : selectSettle pick (New [w]).p = none := by
  simp [selectSettle, New, recv, make]

theorem select_written (pick : Bool) (w : Write) :
    selectSettle pick (AwaitSt.written w).p =
      some ((New [w]).p, match w with
        | Write.resolve v => Sum.inl v
        | Write.reject e => Sum.inr e) := by
  cases w <;> simp [selectSettle, New, recv, make, AwaitSt.written]

theorem await_consumed (pick : Bool) (w : Write) :
    Await pick (AllSettled.consumed w).p = none := by
  simp [Await, AllSettled.consumed, selectSettle, New, recv, make]

theorem allSettled_inv_init (ws : List Write) :
    AllSettled.Inv ws (AllSettled.init (ws.map fun w => New [w])) := by
  refine ⟨by simp [AllSettled.init], by simp [AllSettled.init], by simp [AllSettled.init],
    by simp [AllSettled.init], ?_, Or.inl rfl⟩
  intro i w hw
  have hi : i < ws.length := (List.getElem?_eq_some_iff.mp hw).1
  refine ⟨New [w], none, none, ?_, ?_, ?_, ?_⟩
  · simp [AllSettled.init, List.getElem?_map, hw]
  · simp [AllSettled.init, List.getElem?_replicate, hi]
  · simp [AllSettled.init, List.getElem?_replicate, hi]
  · simp [AllSettled.SlotOk, AllSettled.init]

theorem set_same {α : Type} : ∀ (l : List α) (i : Nat) (a : α), l[i]? = some a → l.set i a = l := by
  intro l
  induction l with
  | nil => intro i a h; simp at h
  | cons y ys ih =>
    intro i a h
    cases i with
    | zero =>
      simp only [List.getElem?_cons_zero, Option.some.injEq] at h
      simp [h]
    | succ i =>
      simp only [List.getElem?_cons_succ] at h
      simp [ih i a h]

theorem getElem?_self {α : Type} (l : List α) (i : Nat) (h : i < l.length) (w : α)
    (hw : l[i]? = some w) : w = l[i] := by
  rw [List.getElem?_eq_getElem h] at hw
  exact (Option.some.inj hw).symm

/-- The caller reads the outcome of promise `idx` and moves to the next one. -/
theorem allSettled_inv_advance (ws : List Write) (s : AllSettledSt) (w : Write)
    (hinv : AllSettled.Inv ws s) (hret : s.ret = none) (hw : ws[s.idx]? = some w) :
    AllSettled.Inv ws
      { s with futures := s.futures.set s.idx (AllSettled.consumed w),
               result := s.result.set s.idx (AwaitSt.outcome w).1,
               reasons := s.reasons.set s.idx (AwaitSt.outcome w).2,
               idx := s.idx + 1 } := by
  obtain ⟨hf, hr, he, hidx, hslot, _⟩ := hinv
  have hi : s.idx < ws.length := (List.getElem?_eq_some_iff.mp hw).1
  refine ⟨by simp [hf], by simp [hr], by simp [he], by simp only; omega, ?_, Or.inl hret⟩
  intro j w' hw'
  obtain ⟨fj, rj, ej, g1, g2, g3, g4⟩ := hslot j w' hw'
  by_cases hij : s.idx = j
  · subst hij
    rw [hw] at hw'
    cases hw'
    refine ⟨AllSettled.consumed w, (AwaitSt.outcome w).1, (AwaitSt.outcome w).2, ?_, ?_, ?_, ?_⟩
    · simp only
      rw [List.getElem?_set_self (by omega)]
    · simp only
      rw [List.getElem?_set_self (by omega)]
    · simp only
      rw [List.getElem?_set_self (by omega)]
    · simp [AllSettled.SlotOk]
  · refine ⟨fj, rj, ej, ?_, ?_, ?_, ?_⟩
    · simp only
      rw [List.getElem?_set_ne hij]
      exact g1
    · simp only
      rw [List.getElem?_set_ne hij]
      exact g2
    · simp only
      rw [List.getElem?_set_ne hij]
      exact g3
    · unfold AllSettled.SlotOk at g4 ⊢
      by_cases hj : j < s.idx
      · have : j < s.idx + 1 := by omega
        simp only [hj, this, if_true] at g4 ⊢
        exact g4
      · have : ¬ j < s.idx + 1 := by omega
        simp only [hj, this, if_false] at g4 ⊢
        exact g4

theorem allSettled_inv_step (ws : List Write) (s t : AllSettledSt) (l : Label)
    (hinv : AllSettled.Inv ws s) (hst : AllSettled.step l s = some t) :
    AllSettled.Inv ws t := by
  have hinv0 := hinv
  obtain ⟨hf, hr, he, hidx, hslot, hret⟩ := hinv
  cases l with
  | producer i =>
    simp only [AllSettled.step] at hst
    cases hfi : s.futures[i]? with
    | none => simp [hfi] at hst
    | some f =>
      simp only [hfi] at hst
      cases hp : f.produce with
      | none => simp [hp] at hst
      | some g =>
        simp only [hp, Option.map_some', Option.some.injEq] at hst
        subst hst
        have hi : i < ws.length := by
          have := (List.getElem?_eq_some_iff.mp hfi).1
          omega
        obtain ⟨f', r, e, h1, h2, h3, h4⟩ := hslot i ws[i] (by simp [hi])
        rw [hfi] at h1
        cases h1
        -- the producer of a promise can only move from `New [w]` to `written w`
        have hfw : f = New [ws[i]] ∧ g = AwaitSt.written ws[i] ∧ ¬ i < s.idx := by
          unfold AllSettled.SlotOk at h4
          split at h4
          · rw [h4.1, produce_consumed] at hp
            cases hp
          · rcases h4.1 with h | h
            · rw [h, produce_new] at hp
              exact ⟨h, (Option.some.inj hp).symm, by assumption⟩
            · rw [h, produce_written] at hp
              cases hp
        refine ⟨by simp [hf], hr, he, hidx, ?_, hret⟩
        intro j w hw
        obtain ⟨fj, rj, ej, g1, g2, g3, g4⟩ := hslot j w hw
        by_cases hij : i = j
        · subst hij
          have hwi : w = ws[i] := getElem?_self ws i hi w hw
          subst hwi
          refine ⟨g, rj, ej, ?_, g2, g3, ?_⟩
          · simp only
            rw [List.getElem?_set_self (by omega)]
          · unfold AllSettled.SlotOk at g4 ⊢
            simp only [hfw.2.2, if_false] at g4 ⊢
            exact ⟨Or.inr hfw.2.1, g4.2⟩
        · refine ⟨fj, rj, ej, ?_, g2, g3, g4⟩
          simp only
          rw [List.getElem?_set_ne hij]
          exact g1
  | observer i pick => simp [AllSettled.step] at hst
  | caller pick =>
    simp only [AllSettled.step] at hst
    rcases hret with hret | ⟨_, hret⟩
    swap
    · simp [hret] at hst
    simp only [hret] at hst
    cases hfi : s.futures[s.idx]? with
    | none =>
      simp only [hfi, Option.some.injEq] at hst
      subst hst
      have : ws.length ≤ s.idx := by
        have := List.getElem?_eq_none_iff.mp hfi
        omega
      exact ⟨hf, hr, he, hidx, hslot, Or.inr ⟨by simp only; omega, rfl⟩⟩
    | some f =>
      simp only [hfi] at hst
      have hi : s.idx < ws.length := by
        have := (List.getElem?_eq_some_iff.mp hfi).1
        omega
      have hwi : ws[s.idx]? = some ws[s.idx] := by simp [hi]
      obtain ⟨f', r, e, h1, h2, h3, h4⟩ := hslot s.idx ws[s.idx] hwi
      rw [hfi] at h1
      cases h1
      unfold AllSettled.SlotOk at h4
      simp only [lt_irrefl, if_false] at h4
      obtain ⟨h4a, rfl, rfl⟩ := h4
      have adv := allSettled_inv_advance ws s ws[s.idx] hinv0 hret hwi
      rcases h4a with h | h
      · rw [h, select_new] at hst
        simp at hst
      · rw [h, select_written] at hst
        cases hw0 : ws[s.idx] with
        | resolve v =>
          rw [hw0] at adv
          simp only [hw0, Option.some.injEq] at hst
          subst hst
          simp only [AwaitSt.outcome] at adv
          rw [set_same s.reasons s.idx none h3] at adv
          simpa [AllSettled.consumed, AwaitSt.written, hret] using adv
        | reject e =>
          rw [hw0] at adv
          simp only [hw0, Option.some.injEq] at hst
          subst hst
          simp only [AwaitSt.outcome] at adv
          rw [set_same s.result s.idx none h2] at adv
          simpa [AllSettled.consumed, AwaitSt.written, hret] using adv

theorem allSettled_inv (ws : List Write) (s : AllSettledSt)
    (hs : Reachable AllSettled.step (AllSettled.init (ws.map fun w => New [w])) s) :
    AllSettled.Inv ws s :=
  Reachable.invariant (AllSettled.Inv ws) (allSettled_inv_init ws)
    (fun s l t => allSettled_inv_step ws s t l) s hs

theorem allSettled_measure (s t : AllSettledSt) (l : Label)
    (hst : AllSettled.step l s = some t) : AllSettled.measure t < AllSettled.measure s := by
  cases l with
  | producer i =>
    simp only [AllSettled.step] at hst
    cases hfi : s.futures[i]? with
    | none => simp [hfi] at hst
    | some f =>
      simp only [hfi] at hst
      cases hp : f.produce with
      | none => simp [hp] at hst
      | some g =>
        simp only [hp, Option.map_some', Option.some.injEq] at hst
        subst hst
        have := pendingWrites_set s.futures i f g hfi hp
        simp only [AllSettled.measure, List.length_set]
        omega
  | observer i pick => simp [AllSettled.step] at hst
  | caller pick =>
    simp only [AllSettled.step] at hst
    cases hret : s.ret with
    | some r => simp [hret] at hst
    | none =>
      simp only [hret] at hst
      cases hfi : s.futures[s.idx]? with
      | none =>
        simp only [hfi, Option.some.injEq] at hst
        subst hst
        simp [AllSettled.measure, hret]
      | some f =>
        simp only [hfi] at hst
        have hi : s.idx < s.futures.length := (List.getElem?_eq_some_iff.mp hfi).1
        cases hsel : selectSettle pick f.p with
        | none => simp [hsel] at hst
        | some x =>
          obtain ⟨q, v | e⟩ := x
          · simp only [hsel, Option.some.injEq] at hst
            subst hst
            have := pendingWrites_set_prod s.futures s.idx f { f with p := q } hfi rfl
            simp only [AllSettled.measure, List.length_set, hret, this]
            omega
          · simp only [hsel, Option.some.injEq] at hst
            subst hst
            have := pendingWrites_set_prod s.futures s.idx f { f with p := q } hfi rfl
            simp only [AllSettled.measure, List.length_set, hret, this]
            omega

theorem allSettled_progress (ws : List Write) (s : AllSettledSt)
    (hinv : AllSettled.Inv ws s) (hret : s.ret = none) :
    ∃ l t, AllSettled.step l s = some t := by
  obtain ⟨hf, hr, he, hidx, hslot, _⟩ := hinv
  by_cases hi : s.idx < ws.length
  · obtain ⟨f, r, e, h1, h2, h3, h4⟩ := hslot s.idx ws[s.idx] (by simp [hi])
    unfold AllSettled.SlotOk at h4
    simp only [lt_irrefl, if_false] at h4
    rcases h4.1 with h | h
    · refine ⟨Label.producer s.idx, ?_⟩
      simp only [AllSettled.step, h1, h, produce_new, Option.map_some']
      exact ⟨_, rfl⟩
    · cases hw : ws[s.idx] with
      | resolve v =>
        refine ⟨Label.caller true, ?_⟩
        simp only [AllSettled.step, hret, h1, h, select_written, hw]
        exact ⟨_, rfl⟩
      | reject e =>
        refine ⟨Label.caller true, ?_⟩
        simp only [AllSettled.step, hret, h1, h, select_written, hw]
        exact ⟨_, rfl⟩
  · refine ⟨Label.caller true, ?_⟩
    have : s.futures[s.idx]? = none := List.getElem?_eq_none_iff.mpr (by omega)
    simp only [AllSettled.step, hret, this]
    exact ⟨_, rfl⟩

/-- C5: for promises made by `New` whose producers write one outcome each,
`AllSettled` returns, under every schedule, two sequences of the length of its
input: at index `i` the value and a nil error when promise `i` fulfilled, a
nil value and the error when it rejected. -/
theorem allSettled_returns (ws : List Write) :
    Returns AllSettled.step (fun s => s.ret) (AllSettled.init (ws.map fun w => New [w]))
      (fun r => r.1.length = ws.length ∧ r.2.length = ws.length ∧
        ∀ i : Nat, (∀ v, ws[i]? = some (Write.resolve v) → r.1[i]? = some v ∧ r.2[i]? = some none) ∧
             (∀ e, ws[i]? = some (Write.reject e) → r.1[i]? = some none ∧ r.2[i]? = some e)) := by
  refine ⟨?_, ?_, ?_⟩
  · intro s hs r hr
    obtain ⟨hf, hres, he, hidx, hslot, hret⟩ := allSettled_inv ws s hs
    simp only at hr
    rcases hret with h | ⟨hn, h⟩
    · rw [h] at hr
      cases hr
    · rw [h] at hr
      cases hr
      refine ⟨hres, he, ?_⟩
      intro i
      constructor
      · intro v hw
        have hi : i < s.idx := by
          have := (List.getElem?_eq_some_iff.mp hw).1
          omega
        obtain ⟨f, r, e, _, h2, h3, h4⟩ := hslot i _ hw
        simp only [AllSettled.SlotOk, hi, if_true, AwaitSt.outcome] at h4
        rw [h2, h3, h4.2.1, h4.2.2]
        exact ⟨rfl, rfl⟩
      · intro e hw
        have hi : i < s.idx := by
          have := (List.getElem?_eq_some_iff.mp hw).1
          omega
        obtain ⟨f, r, e', _, h2, h3, h4⟩ := hslot i _ hw
        simp only [AllSettled.SlotOk, hi, if_true, AwaitSt.outcome] at h4
        rw [h2, h3, h4.2.1, h4.2.2]
        exact ⟨rfl, rfl⟩
  · intro s hs hr
    exact allSettled_progress ws s (allSettled_inv ws s hs) hr
  · exact ⟨AllSettled.measure, fun s _ l t h => allSettled_measure s t l h⟩

theorem thenAwait_inv (ws : List Write) (i : Nat) (s : ThenAwaitSt)
    (hs : Reachable ThenAwait.step (ThenAwait.init (ws.map fun w => New [w]) i) s) :
    AllSettled.Inv ws s.settled ∧ s.awaited = none := by
  refine Reachable.invariant (fun s => AllSettled.Inv ws s.settled ∧ s.awaited = none)
    ⟨allSettled_inv_init ws, rfl⟩ ?_ s hs
  intro s l t ⟨hinv, haw⟩ hst
  have other : ∀ l, (AllSettled.step l s.settled).map (fun u => { s with settled := u }) = some t →
      AllSettled.Inv ws t.settled ∧ t.awaited = none := by
    intro l h
    cases hu : AllSettled.step l s.settled with
    | none => simp [hu] at h
    | some u =>
      simp only [hu, Option.map_some', Option.some.injEq] at h
      subst h
      exact ⟨allSettled_inv_step ws s.settled u l hinv hu, haw⟩
  cases l with
  | producer j => exact other (Label.producer j) (by simpa [ThenAwait.step] using hst)
  | observer j pick => exact other (Label.observer j pick) (by simpa [ThenAwait.step] using hst)
  | caller pick =>
    simp only [ThenAwait.step] at hst
    cases hret : s.settled.ret with
    | none =>
      simp only [hret] at hst
      exact other (Label.caller pick) hst
    | some r =>
      exfalso
      simp only [hret, haw] at hst
      cases hfi : s.settled.futures[s.i]? with
      | none => simp [hfi] at hst
      | some f =>
        simp only [hfi] at hst
        obtain ⟨hf, _, _, _, hslot, hr⟩ := hinv
        have hidx : s.settled.idx = ws.length := by
          rcases hr with h | h
          · rw [h] at hret
            cases hret
          · exact h.1
        have hi : s.i < ws.length := by
          have := (List.getElem?_eq_some_iff.mp hfi).1
          omega
        obtain ⟨f', _, _, h1, _, _, h4⟩ := hslot s.i ws[s.i] (by simp [hi])
        rw [hfi] at h1
        cases h1
        have hlt : s.i < s.settled.idx := by omega
        simp only [AllSettled.SlotOk, hlt, if_true] at h4
        rw [h4.1, await_consumed] at hst
        simp at hst

/-- C10: `AllSettled` reads the channels of its inputs and leaves the promises
as `New` made them: once it has returned, every input promise has
`State = pending`, `val = err = nil`, both channels empty and a producer that
has finished, so `Await` on it blocks; under no schedule does a later
`futures[i].Await()` return. -/
theorem allSettled_leaves_pending (ws : List Write) (i : Nat) (s : ThenAwaitSt)
    (hs : Reachable ThenAwait.step (ThenAwait.init (ws.map fun w => New [w]) i) s) :
    s.awaited = none ∧
    (s.settled.ret ≠ none → ∀ (j : Nat) (f : Fut), s.settled.futures[j]? = some f →
      f.p.State = State.StatePending ∧ f.p.val = none ∧ f.p.err = none ∧
      f.p.resolve = make Val 1 ∧ f.p.reject = make Err 1 ∧ f.prod = [] ∧
      ∀ pick, Await pick f.p = none) := by
  obtain ⟨⟨hf, _, _, _, hslot, hr⟩, haw⟩ := thenAwait_inv ws i s hs
  refine ⟨haw, ?_⟩
  intro hret j f hfj
  have hidx : s.settled.idx = ws.length := by
    rcases hr with h | h
    · exact absurd h hret
    · exact h.1
  have hj : j < ws.length := by
    have := (List.getElem?_eq_some_iff.mp hfj).1
    omega
  obtain ⟨f', _, _, h1, _, _, h4⟩ := hslot j ws[j] (by simp [hj])
  rw [hfj] at h1
  cases h1
  have hlt : j < s.settled.idx := by omega
  simp only [AllSettled.SlotOk, hlt, if_true] at h4
  rw [h4.1]
  exact ⟨rfl, rfl, rfl, rfl, rfl, rfl, fun pick => await_consumed pick _⟩

/-- C10 at `AllSettled(p0, p1)`, `p0` fulfilling with 1 and `p1` rejecting with
2, followed by `p0.Await()`: a state in which `AllSettled` has returned
`([1, nil], [nil, 2])`. -/
theorem allSettled_leaves_pending_witness :
    ∃ s, Reachable ThenAwait.step
        (ThenAwait.init ([Write.resolve (some 1), Write.reject (some 2)].map fun w => New [w]) 0) s ∧
      s.settled.ret = some ([some 1, none], [none, some 2]) ∧
      s.awaited = none ∧
      (s.settled.ret ≠ none → ∀ (j : Nat) (f : Fut), s.settled.futures[j]? = some f →
        f.p.State = State.StatePending ∧ f.p.val = none ∧ f.p.err = none ∧
        f.p.resolve = make Val 1 ∧ f.p.reject = make Err 1 ∧ f.prod = [] ∧
        ∀ pick, Await pick f.p = none) := by
  have hex : exec ThenAwait.step
      [Label.producer 1, Label.producer 0, Label.caller true, Label.caller true, Label.caller true]
      (ThenAwait.init ([Write.resolve (some 1), Write.reject (some 2)].map fun w => New [w]) 0) =
      some { settled := { futures := [AllSettled.consumed (Write.resolve (some 1)),
                                      AllSettled.consumed (Write.reject (some 2))],
                          idx := 2, result := [some 1, none], reasons := [none, some 2],
                          ret := some ([some 1, none], [none, some 2]) },
             i := 0, awaited := none } := by decide
  have hreach := Reachable.of_exec _ _ _ Reachable.start hex
  exact ⟨_, hreach, rfl,
    allSettled_leaves_pending [Write.resolve (some 1), Write.reject (some 2)] 0 _ hreach⟩

/-! ## All -/

theorem countP_set_of {α : Type} (p : α → Bool) :
    ∀ (l : List α) (i : Nat) (a x : α), l[i]? = some x →
      (l.set i a).countP p + (if p x then 1 else 0) = l.countP p + (if p a then 1 else 0) := by
  intro l
  induction l with
  | nil => intro i a x h; simp at h
  | cons y ys ih =>
    intro i a x h
    cases i with
    | zero =>
      simp only [List.getElem?_cons_zero, Option.some.injEq] at h
      subst h
      simp only [List.set_cons_zero, List.countP_cons]
      omega
    | succ i =>
      simp only [List.getElem?_cons_succ] at h
      have := ih i a x h
      simp only [List.set_cons_succ, List.countP_cons]
      omega

theorem forall_mem_set {α : Type} {P : α → Prop} {l : List α} {i : Nat} {a : α}
    (h : ∀ x ∈ l, P x) (ha : P a) : ∀ x ∈ l.set i a, P x := by
  intro x hx
  rcases List.mem_or_eq_of_mem_set hx with hx | hx
  · exact h x hx
  · exact hx ▸ ha

theorem exists_mem_set {α : Type} {Q : α → Prop} {l : List α} {i : Nat} {o a : α}
    (hi : l[i]? = some o) (h : ∃ x ∈ l, Q x) (ha : Q o → Q a) : ∃ x ∈ l.set i a, Q x := by
  obtain ⟨x, hx, hq⟩ := h
  obtain ⟨j, hj⟩ := List.mem_iff_getElem?.mp hx
  have hil : i < l.length := (List.getElem?_eq_some_iff.mp hi).1
  by_cases hij : i = j
  · subst hij
    rw [hi] at hj
    cases hj
    refine ⟨a, ?_, ha hq⟩
    exact List.mem_iff_getElem?.mpr ⟨i, List.getElem?_set_self hil⟩
  · refine ⟨x, ?_, hq⟩
    exact List.mem_iff_getElem?.mpr ⟨j, by rw [List.getElem?_set_ne hij]; exact hj⟩

theorem mem_of_getElem? {α : Type} {l : List α} {i : Nat} {o : α} (h : l[i]? = some o) :
    o ∈ l := List.mem_iff_getElem?.mpr ⟨i, h⟩

theorem shape_resolver {w : Write} {o : Obs} (h : All.Shape w o) :
    o.fut.p.resolver = some [w] := by
  obtain ⟨fut, pc⟩ := o
  cases pc <;> simp only [All.Shape] at h
  · rcases h with h | h
    · subst h; rfl
    · subst h; cases w <;> rfl
  all_goals first
    | (obtain ⟨h, _⟩ := h; subst h; rfl)
    | (subst h; rfl)

theorem shape_produce {w : Write} {o : Obs} {g : Fut} (h : All.Shape w o)
    (hp : o.fut.produce = some g) : o.pc = Pc.select ∧ g = AwaitSt.written w := by
  obtain ⟨fut, pc⟩ := o
  cases pc <;> simp only [All.Shape] at h
  · rcases h with h | h
    · subst h
      rw [produce_new] at hp
      exact ⟨rfl, (Option.some.inj hp).symm⟩
    · subst h
      rw [produce_written] at hp
      cases hp
  all_goals first
    | (obtain ⟨h, _⟩ := h; subst h; rw [produce_consumed] at hp; cases hp)
    | (subst h; rw [produce_consumed] at hp; cases hp)

theorem shape_select {w : Write} {o o1 : Obs} {pick : Bool} (h : All.Shape w o)
    (hpc : o.pc = Pc.select) (hs : o.doSelect pick = some o1) :
    o1.fut = AllSettled.consumed w ∧
      ((∃ v, w = Write.resolve v ∧ o1.pc = Pc.setVal v) ∨
       (∃ e, w = Write.reject e ∧ o1.pc = Pc.setErr e)) := by
  obtain ⟨fut, pc⟩ := o
  simp only at hpc
  subst hpc
  simp only [All.Shape] at h
  rcases h with h | h
  · subst h
    simp [Obs.doSelect, select_new] at hs
  · subst h
    cases w with
    | resolve v =>
      simp only [Obs.doSelect, select_written, Option.some.injEq] at hs
      subst hs
      exact ⟨rfl, Or.inl ⟨v, rfl, rfl⟩⟩
    | reject e =>
      simp only [Obs.doSelect, select_written, Option.some.injEq] at hs
      subst hs
      exact ⟨rfl, Or.inr ⟨e, rfl, rfl⟩⟩

theorem slotInv_mono {E : Err → Prop} {A B A' B' : Prop} {o : Obs}
    (h : All.SlotInv E A B o) (hA : A → A') (hB : B → B') : All.SlotInv E A' B' o := by
  obtain ⟨w, h1, h2, h3, h4, h5⟩ := h
  exact ⟨w, h1, h2, fun x => hA (h3 x), fun x y => hA (h4 x y), fun x y => hB (h5 x y)⟩

/-- A step that changes goroutine `i` and the shared variables keeps the
invariant, given what it does to each. -/
theorem all_inv_of_parts (E : Err → Prop) (s t : AllSt) (i : Nat) (o o1 : Obs)
    (hinv : All.Inv E s) (hoi : s.obs[i]? = some o) (hobs : t.obs = s.obs.set i o1)
    (hres : o1.fut.p.resolver = o.fut.p.resolver)
    (hslot : All.SlotInv E (t.err ≠ none) (All.DoneSet t) o1)
    (hmonoE : s.err ≠ none → t.err ≠ none) (hmonoD : All.DoneSet s → All.DoneSet t)
    (hcount : t.count + (if All.pastAdd o.pc then 1 else 0) =
      s.count + (if All.pastAdd o1.pc then 1 else 0))
    (hD : t.err = none ∨ E t.err) (hH : All.DoneSet t → t.err ≠ none)
    (hK : t.done = some ⟨1, []⟩ ∨ t.done = some ⟨1, [true]⟩)
    (hcaller : t.caller = s.caller) : All.Inv E t := by
  obtain ⟨h1, h2, h3, h4, h5, h6, h7, h8, h9⟩ := hinv
  refine ⟨?_, ?_, ?_, hD, hH, ?_, hK, ?_, ?_⟩
  · rw [hobs]
    exact forall_mem_set (fun x hx => slotInv_mono (h1 x hx) hmonoE hmonoD) hslot
  · rw [hobs]
    refine exists_mem_set hoi h2 ?_
    intro ⟨e, he⟩
    exact ⟨e, by rw [hres, he]⟩
  · rw [hobs]
    have := countP_set_of (fun o : Obs => All.pastAdd o.pc) s.obs i o1 o hoi
    simp only at this
    omega
  · rw [hcaller]
    exact h6
  · rw [hcaller]
    exact h8
  · rw [hcaller]
    exact h9

theorem all_observer_length (s t : AllSt) (i : Nat) (pick : Bool)
    (hst : All.step (Label.observer i pick) s = some t) : t.obs.length = s.obs.length := by
  simp only [All.step] at hst
  split at hst
  swap
  · cases hst
  cases hoi : s.obs[i]? with
  | none => simp [hoi] at hst
  | some o =>
    simp only [hoi] at hst
    cases hso : All.stepObs pick i s o with
    | none => simp [hso] at hst
    | some x =>
      simp only [hso, Option.map_some', Option.some.injEq] at hst
      subst hst
      have : x.1.obs = s.obs := by
        obtain ⟨fut, pc⟩ := o
        cases pc <;> simp only [All.stepObs] at hso
        · cases hsel : Obs.doSelect pick { fut := fut, pc := Pc.select } with
          | none => simp [hsel] at hso
          | some o1 =>
            simp only [hsel, Option.map_some', Option.some.injEq] at hso
            subst hso
            rfl
        · simp only [Option.some.injEq] at hso
          subst hso
          rfl
        · simp only [Option.some.injEq] at hso
          subst hso
          rfl
        · cases hsd : send s.done true with
          | none => simp [hsd] at hso
          | some c =>
            simp only [hsd, Option.map_some', Option.some.injEq] at hso
            subst hso
            rfl
        · simp only [Option.some.injEq] at hso
          subst hso
          rfl
        · simp only [Option.some.injEq] at hso
          subst hso
          rfl
        · cases hsd : send s.done true with
          | none => simp [hsd] at hso
          | some c =>
            simp only [hsd, Option.map_some', Option.some.injEq] at hso
            subst hso
            rfl
        · cases hso
      simp [this]

theorem all_inv_producer (E : Err → Prop) (s t : AllSt) (i : Nat)
    (hinv : All.Inv E s) (hst : All.step (Label.producer i) s = some t) : All.Inv E t := by
  simp only [All.step] at hst
  cases hoi : s.obs[i]? with
  | none => simp [hoi] at hst
  | some o =>
    simp only [hoi] at hst
    cases hp : o.fut.produce with
    | none => simp [hp] at hst
    | some g =>
      simp only [hp, Option.map_some', Option.some.injEq] at hst
      subst hst
      obtain ⟨w, a1, a2, a3, a4, a5⟩ := hinv.1 o (mem_of_getElem? hoi)
      obtain ⟨hpc, hg⟩ := shape_produce a2 hp
      subst hg
      have hr := shape_resolver a2
      refine all_inv_of_parts E s _ i o { o with fut := AwaitSt.written w } hinv hoi rfl ?_ ?_
        id id rfl hinv.2.2.2.1 hinv.2.2.2.2.1 hinv.2.2.2.2.2.2.1 rfl
      · rw [hr]
        cases w <;> rfl
      · refine ⟨w, a1, ?_, a3, a4, a5⟩
        simp [All.Shape, hpc]

theorem all_inv_observer (E : Err → Prop) (hE : ∀ e, E e → e ≠ none) (s t : AllSt) (i : Nat)
    (pick : Bool) (hinv : All.Inv E s) (hN : s.obs.length < 2 ^ 32)
    (hst : All.step (Label.observer i pick) s = some t) :
    All.Inv E t := by
  have hmod : int32 s.obs.length = s.obs.length := Nat.mod_eq_of_lt hN
  simp only [All.step] at hst
  split at hst
  swap
  · cases hst
  cases hoi : s.obs[i]? with
  | none => simp [hoi] at hst
  | some o =>
    simp only [hoi] at hst
    cases hso : All.stepObs pick i s o with
    | none => simp [hso] at hst
    | some x =>
      simp only [hso, Option.map_some', Option.some.injEq] at hst
      subst hst
      obtain ⟨w, a1, a2, a3, a4, a5⟩ := hinv.1 o (mem_of_getElem? hoi)
      obtain ⟨h1, h2, h3, h4, h5, h6, h7, h8, h9⟩ := hinv
      have hr := shape_resolver a2
      obtain ⟨fut, pc⟩ := o
      cases pc with
      | select =>
        simp only [All.stepObs] at hso
        cases hsel : Obs.doSelect pick { fut := fut, pc := Pc.select } with
        | none => simp [hsel] at hso
        | some o1 =>
          simp only [hsel, Option.map_some', Option.some.injEq] at hso
          subst hso
          obtain ⟨b1, b2⟩ := shape_select a2 rfl hsel
          obtain ⟨fut1, pc1⟩ := o1
          simp only at b1 b2
          subst b1
          refine all_inv_of_parts E s _ i _ _ ⟨h1, h2, h3, h4, h5, h6, h7, h8, h9⟩ hoi rfl ?_ ?_
            id id ?_ h4 h5 h7 rfl
          · rw [hr]
            rfl
          · rcases b2 with ⟨v, hw, hpc⟩ | ⟨e, hw, hpc⟩
            · subst hpc
              exact ⟨w, a1, ⟨rfl, hw⟩, by simp, by simp [All.pastSetErr], by simp [All.pastDone]⟩
            · subst hpc
              exact ⟨w, a1, ⟨rfl, hw⟩, by simp, by simp [All.pastSetErr], by simp [All.pastDone]⟩
          · rcases b2 with ⟨v, hw, hpc⟩ | ⟨e, hw, hpc⟩ <;> subst hpc <;> simp [All.pastAdd]
      | setVal v =>
        simp only [All.stepObs, Option.some.injEq] at hso
        subst hso
        simp only [All.Shape] at a2
        refine all_inv_of_parts E s _ i _ _ ⟨h1, h2, h3, h4, h5, h6, h7, h8, h9⟩ hoi rfl rfl ?_
          id id (by simp [All.pastAdd]) h4 h5 h7 rfl
        refine ⟨w, a1, a2.1, by simp, ?_, ?_⟩
        · intro ⟨e, he⟩
          rw [a2.2] at he
          cases he
        · intro ⟨e, he⟩
          rw [a2.2] at he
          cases he
      | setErr e =>
        simp only [All.stepObs, Option.some.injEq] at hso
        subst hso
        simp only [All.Shape] at a2
        have hne : e ≠ none := hE e (a1 e a2.2)
        refine all_inv_of_parts E s _ i _ _ ⟨h1, h2, h3, h4, h5, h6, h7, h8, h9⟩ hoi rfl rfl ?_
          (fun _ => hne) id (by simp [All.pastAdd]) (Or.inr (a1 e a2.2)) (fun _ => hne) h7 rfl
        exact ⟨w, a1, ⟨a2.1, e, a2.2⟩, by simp, fun _ _ => hne, by simp [All.pastDone]⟩
      | doneEarly =>
        simp only [All.stepObs] at hso
        simp only [All.Shape] at a2
        have herr : s.err ≠ none := a4 a2.2 rfl
        rcases h7 with hd | hd
        · simp only [hd, send, List.length_nil, Nat.lt_one_iff, if_true, List.nil_append,
            Option.map_some', Option.some.injEq] at hso
          subst hso
          refine all_inv_of_parts E s _ i _ _ ⟨h1, h2, h3, h4, h5, h6, Or.inl hd, h8, h9⟩ hoi rfl rfl
            ?_ id (fun _ => Or.inl rfl) (by simp [All.pastAdd]) h4 (fun _ => herr) (Or.inr rfl) rfl
          exact ⟨w, a1, a2.1, by simp, fun _ _ => herr, fun _ _ => Or.inl rfl⟩
        · simp [hd, send] at hso
      | add =>
        simp only [All.stepObs, Option.some.injEq] at hso
        subst hso
        simp only [All.Shape] at a2
        have hlt : s.count + 1 < 2 ^ 32 := by
          have hle := List.countP_le_length (fun o : Obs => All.pastAdd o.pc) (l := s.obs)
          have hne : s.obs.countP (fun o => All.pastAdd o.pc) ≠ s.obs.length := by
            intro h
            have := List.countP_eq_length.mp h _ (mem_of_getElem? hoi)
            simp [All.pastAdd] at this
          omega
        have hmod1 : int32 (s.count + 1) = s.count + 1 := Nat.mod_eq_of_lt hlt
        refine all_inv_of_parts E s _ i _ _ ⟨h1, h2, h3, h4, h5, h6, h7, h8, h9⟩ hoi rfl rfl ?_
          id id (by simp [All.pastAdd, hmod1]) h4 h5 h7 rfl
        exact ⟨w, a1, a2, by simp, fun x _ => a4 x rfl, fun x _ => a5 x rfl⟩
      | load =>
        simp only [All.stepObs, hmod, Option.some.injEq] at hso
        subst hso
        simp only [All.Shape] at a2
        refine all_inv_of_parts E s _ i _ _ ⟨h1, h2, h3, h4, h5, h6, h7, h8, h9⟩ hoi rfl rfl ?_
          id id ?_ h4 h5 h7 rfl
        · refine ⟨w, a1, ?_, ?_, fun x _ => a4 x rfl, fun x _ => a5 x rfl⟩
          · by_cases hc : s.count = s.obs.length <;> simp [hc, All.Shape, a2]
          · intro hpc
            have hc : s.count = s.obs.length := by
              by_contra hc
              simp [hc] at hpc
            rw [h3] at hc
            have hall := List.countP_eq_length.mp hc
            obtain ⟨o', ho', e', he'⟩ := h2
            obtain ⟨w', c1, c2, c3, c4, c5⟩ := h1 o' ho'
            have hr' := shape_resolver c2
            rw [hr'] at he'
            simp only [Option.some.injEq, List.cons.injEq, and_true] at he'
            have hp := hall o' ho'
            refine c4 ⟨e', he'⟩ ?_
            revert hp
            cases o'.pc <;> simp [All.pastAdd, All.pastSetErr]
        · by_cases hc : s.count = s.obs.length <;> simp [hc, All.pastAdd]
      | doneAll =>
        simp only [All.stepObs] at hso
        simp only [All.Shape] at a2
        have herr : s.err ≠ none := a3 rfl
        rcases h7 with hd | hd
        · simp only [hd, send, List.length_nil, Nat.lt_one_iff, if_true, List.nil_append,
            Option.map_some', Option.some.injEq] at hso
          subst hso
          refine all_inv_of_parts E s _ i _ _ ⟨h1, h2, h3, h4, h5, h6, Or.inl hd, h8, h9⟩ hoi rfl rfl
            ?_ id (fun _ => Or.inl rfl) (by simp [All.pastAdd]) h4 (fun _ => herr) (Or.inr rfl) rfl
          exact ⟨w, a1, a2, by simp, fun _ _ => herr, fun _ _ => Or.inl rfl⟩
        · simp [hd, send] at hso
      | exit => simp [All.stepObs] at hso

theorem all_inv_caller (E : Err → Prop) (s t : AllSt) (pick : Bool)
    (hinv : All.Inv E s) (hst : All.step (Label.caller pick) s = some t) : All.Inv E t := by
  obtain ⟨h1, h2, h3, h4, h5, h6, h7, h8, h9⟩ := hinv
  obtain ⟨obs, result, err, done, count, caller⟩ := s
  simp only [All.step] at hst
  simp only at h1 h2 h3 h4 h5 h6 h7 h8 h9
  cases caller with
  | spawn idx =>
    simp only at hst
    split at hst <;>
    · simp only [Option.some.injEq] at hst
      subst hst
      refine ⟨?_, h2, h3, h4, ?_, by simp, h7, by simp, by simp⟩
      · intro o ho
        exact slotInv_mono (h1 o ho) id (by simp [All.DoneSet, All.pastWait])
      · intro hd
        exact h5 (by simpa [All.DoneSet, All.pastWait] using hd)
  | wait =>
    simp only at hst
    rcases h7 with hd | hd
    · simp [hd, recv] at hst
    · simp only [hd, recv, Option.map_some', Option.some.injEq] at hst
      subst hst
      have herr : err ≠ none := h5 (Or.inl hd)
      refine ⟨?_, h2, h3, h4, fun _ => herr, by simp, Or.inl rfl, by simp, by simp⟩
      intro o ho
      exact slotInv_mono (h1 o ho) id (fun _ => Or.inr rfl)
  | test => simp at hst
  | clear => simp at hst
  | ret =>
    simp only [Option.some.injEq] at hst
    subst hst
    have herr : err ≠ none := h5 (Or.inr rfl)
    refine ⟨?_, h2, h3, h4, fun _ => herr, ?_, h7, by simp, by simp⟩
    · intro o ho
      exact slotInv_mono (h1 o ho) id (fun _ => Or.inr rfl)
    · intro r hr
      simp only [CallerPc.returned.injEq] at hr
      subst hr
      rcases h4 with h | h
      · exact absurd h herr
      · exact h
  | returned r => simp at hst

theorem all_step_length (s t : AllSt) (l : Label) (hst : All.step l s = some t) :
    t.obs.length = s.obs.length := by
  cases l with
  | producer i =>
    simp only [All.step] at hst
    cases hoi : s.obs[i]? with
    | none => simp [hoi] at hst
    | some o =>
      simp only [hoi] at hst
      cases hp : o.fut.produce with
      | none => simp [hp] at hst
      | some g =>
        simp only [hp, Option.map_some', Option.some.injEq] at hst
        subst hst
        simp
  | observer i pick =>
    exact Nat.le_antisymm (by have := all_observer_length s t i pick hst; omega)
      (by have := all_observer_length s t i pick hst; omega)
  | caller pick =>
    obtain ⟨obs, result, err, done, count, caller⟩ := s
    simp only [All.step] at hst
    cases caller with
    | spawn idx =>
      simp only at hst
      split at hst <;>
      · simp only [Option.some.injEq] at hst
        subst hst
        rfl
    | wait =>
      simp only at hst
      cases hr : recv done with
      | none => simp [hr] at hst
      | some x =>
        simp only [hr, Option.map_some', Option.some.injEq] at hst
        subst hst
        rfl
    | test => simp at hst
    | clear => simp at hst
    | ret =>
      simp only [Option.some.injEq] at hst
      subst hst
      rfl
    | returned r => simp at hst

theorem all_inv_step (E : Err → Prop) (hE : ∀ e, E e → e ≠ none) (s t : AllSt) (l : Label)
    (hinv : All.Inv E s ∧ s.obs.length < 2 ^ 32) (hst : All.step l s = some t) :
    All.Inv E t ∧ t.obs.length < 2 ^ 32 := by
  refine ⟨?_, by rw [all_step_length s t l hst]; exact hinv.2⟩
  cases l with
  | producer i => exact all_inv_producer E s t i hinv.1 hst
  | observer i pick => exact all_inv_observer E hE s t i pick hinv.1 hinv.2 hst
  | caller pick => exact all_inv_caller E s t pick hinv.1 hst

theorem all_inv_init (E : Err → Prop) (ws : List Write)
    (hall : ∀ e, Write.reject e ∈ ws → E e) (hex : ∃ e, Write.reject e ∈ ws) :
    All.Inv E (All.init (ws.map fun w => New [w])) := by
  refine ⟨?_, ?_, ?_, Or.inl rfl, ?_, ?_, Or.inl rfl, ?_, ?_⟩
  · intro o ho
    simp only [All.init, List.map_map, List.mem_map, Function.comp] at ho
    obtain ⟨w, hw, rfl⟩ := ho
    refine ⟨w, fun e he => hall e (he ▸ hw), Or.inl rfl, by simp, by simp [All.pastSetErr],
      by simp [All.pastDone]⟩
  · obtain ⟨e, he⟩ := hex
    refine ⟨{ fut := New [Write.reject e], pc := Pc.select }, ?_, e, rfl⟩
    simp only [All.init, List.map_map, List.mem_map, Function.comp]
    exact ⟨_, he, rfl⟩
  · symm
    simp only [All.init, List.map_map]
    rw [List.countP_eq_zero]
    intro o ho
    simp only [List.mem_map, Function.comp] at ho
    obtain ⟨w, _, rfl⟩ := ho
    simp [All.pastAdd]
  · intro h
    simp [All.DoneSet, All.init, All.pastWait, make] at h
  · intro r hr
    simp [All.init] at hr
  · simp [All.init]
  · simp [All.init]

theorem all_measure (s t : AllSt) (l : Label) (hst : All.step l s = some t) :
    All.measure t < All.measure s := by
  cases l with
  | producer i =>
    simp only [All.step] at hst
    cases hoi : s.obs[i]? with
    | none => simp [hoi] at hst
    | some o =>
      simp only [hoi] at hst
      cases hp : o.fut.produce with
      | none => simp [hp] at hst
      | some g =>
        simp only [hp, Option.map_some', Option.some.injEq] at hst
        subst hst
        have h1 := sum_map_set (fun o : Obs => All.weight o.pc + o.fut.prod.length) s.obs i
          { o with fut := g } o hoi
        have h2 := Fut.produce_prod hp
        simp only [All.measure, List.length_set]
        simp only at h1
        omega
  | observer i pick =>
    simp only [All.step] at hst
    split at hst
    swap
    · cases hst
    cases hoi : s.obs[i]? with
    | none => simp [hoi] at hst
    | some o =>
      simp only [hoi] at hst
      cases hso : All.stepObs pick i s o with
      | none => simp [hso] at hst
      | some x =>
        simp only [hso, Option.map_some', Option.some.injEq] at hst
        subst hst
        have key : x.1.obs = s.obs ∧ x.1.caller = s.caller ∧
            All.weight x.2.pc + x.2.fut.prod.length < All.weight o.pc + o.fut.prod.length := by
          obtain ⟨fut, pc⟩ := o
          cases pc with
          | select =>
            simp only [All.stepObs, Obs.doSelect] at hso
            cases hsel : selectSettle pick fut.p with
            | none => simp [hsel] at hso
            | some y =>
              obtain ⟨q, v | e⟩ := y <;>
              · simp only [hsel, Option.map_some', Option.some.injEq] at hso
                subst hso
                simp [All.weight]
          | setVal v =>
            simp only [All.stepObs, Option.some.injEq] at hso
            subst hso
            simp [All.weight]
          | setErr e =>
            simp only [All.stepObs, Option.some.injEq] at hso
            subst hso
            simp [All.weight]
          | doneEarly =>
            simp only [All.stepObs] at hso
            cases hsd : send s.done true with
            | none => simp [hsd] at hso
            | some c =>
              simp only [hsd, Option.map_some', Option.some.injEq] at hso
              subst hso
              simp [All.weight]
          | add =>
            simp only [All.stepObs, Option.some.injEq] at hso
            subst hso
            simp [All.weight]
          | load =>
            simp only [All.stepObs, Option.some.injEq] at hso
            subst hso
            by_cases hc : s.count = int32 s.obs.length <;> simp [All.weight, hc]
          | doneAll =>
            simp only [All.stepObs] at hso
            cases hsd : send s.done true with
            | none => simp [hsd] at hso
            | some c =>
              simp only [hsd, Option.map_some', Option.some.injEq] at hso
              subst hso
              simp [All.weight]
          | exit => simp [All.stepObs] at hso
        obtain ⟨k1, k2, k3⟩ := key
        have h1 := sum_map_set (fun o : Obs => All.weight o.pc + o.fut.prod.length) s.obs i
          x.2 o hoi
        simp only [All.measure, List.length_set, k1, k2]
        simp only at h1
        omega
  | caller pick =>
    obtain ⟨obs, result, err, done, count, caller⟩ := s
    simp only [All.step] at hst
    cases caller with
    | spawn idx =>
      simp only at hst
      split at hst <;>
      · simp only [Option.some.injEq] at hst
        subst hst
        simp only [All.measure, All.callerWeight]
        omega
    | wait =>
      simp only at hst
      cases hr : recv done with
      | none => simp [hr] at hst
      | some x =>
        simp only [hr, Option.map_some', Option.some.injEq] at hst
        subst hst
        simp [All.measure, All.callerWeight]
    | test => simp at hst
    | clear => simp at hst
    | ret =>
      simp only [Option.some.injEq] at hst
      subst hst
      simp [All.measure, All.callerWeight]
    | returned r => simp at hst

theorem all_progress (E : Err → Prop) (s : AllSt) (hinv : All.Inv E s)
    (hret : s.caller.result = none) : ∃ l t, All.step l s = some t := by
  obtain ⟨h1, h2, h3, h4, h5, h6, h7, h8, h9⟩ := hinv
  cases hc : s.caller with
  | spawn idx =>
    refine ⟨Label.caller true, ?_⟩
    by_cases hi : idx < s.obs.length <;> simp [All.step, hc, hi]
  | test => exact absurd hc h8
  | clear => exact absurd hc h9
  | ret =>
    refine ⟨Label.caller true, ?_⟩
    simp [All.step, hc]
  | returned r => simp [hc, CallerPc.result] at hret
  | wait =>
    rcases h7 with hd | hd
    swap
    · refine ⟨Label.caller true, ?_⟩
      simp [All.step, hc, hd, recv]
    by_cases hall : ∀ o ∈ s.obs, o.pc = Pc.exit
    · exfalso
      obtain ⟨o, ho, e, he⟩ := h2
      obtain ⟨w, a1, a2, a3, a4, a5⟩ := h1 o ho
      rw [shape_resolver a2] at he
      simp only [Option.some.injEq, List.cons.injEq, and_true] at he
      have := a5 ⟨e, he⟩ (by rw [hall o ho]; rfl)
      simp [All.DoneSet, hd, hc, All.pastWait] at this
    · push_neg at hall
      obtain ⟨o, ho, hpc⟩ := hall
      obtain ⟨i, hoi⟩ := List.mem_iff_getElem?.mp ho
      have hi : i < s.obs.length := (List.getElem?_eq_some_iff.mp hoi).1
      obtain ⟨w, a1, a2, a3, a4, a5⟩ := h1 o ho
      obtain ⟨fut, pc⟩ := o
      cases pc with
      | select =>
        simp only [All.Shape] at a2
        rcases a2 with a2 | a2
        · subst a2
          refine ⟨Label.producer i, ?_⟩
          simp [All.step, hoi, produce_new]
        · subst a2
          refine ⟨Label.observer i true, ?_⟩
          cases w <;>
            simp [All.step, All.spawned, hc, hi, hoi, All.stepObs, Obs.doSelect, select_written]
      | setVal v =>
        refine ⟨Label.observer i true, ?_⟩
        simp [All.step, All.spawned, hc, hi, hoi, All.stepObs]
      | setErr e =>
        refine ⟨Label.observer i true, ?_⟩
        simp [All.step, All.spawned, hc, hi, hoi, All.stepObs]
      | doneEarly =>
        refine ⟨Label.observer i true, ?_⟩
        simp [All.step, All.spawned, hc, hi, hoi, All.stepObs, hd, send]
      | add =>
        refine ⟨Label.observer i true, ?_⟩
        simp [All.step, All.spawned, hc, hi, hoi, All.stepObs]
      | load =>
        refine ⟨Label.observer i true, ?_⟩
        simp [All.step, All.spawned, hc, hi, hoi, All.stepObs]
      | doneAll =>
        refine ⟨Label.observer i true, ?_⟩
        simp [All.step, All.spawned, hc, hi, hoi, All.stepObs, hd, send]
      | exit => exact absurd rfl hpc

/-- When some producer rejects and every rejection is with an error in `E`,
none of them nil, `All` returns under every schedule, with an error in `E`. -/
theorem all_rejects (E : Err → Prop) (hE : ∀ e, E e → e ≠ none) (ws : List Write)
    (hlen : ws.length < 2 ^ 32)
    (hall : ∀ e, Write.reject e ∈ ws → E e) (hex : ∃ e, Write.reject e ∈ ws) :
    Returns All.step (fun s => s.caller.result) (All.init (ws.map fun w => New [w]))
      (fun r => E r.2) := by
  have inv : ∀ s, Reachable All.step (All.init (ws.map fun w => New [w])) s → All.Inv E s :=
    fun s hs => (Reachable.invariant (fun s => All.Inv E s ∧ s.obs.length < 2 ^ 32)
      ⟨all_inv_init E ws hall hex, by simpa [All.init] using hlen⟩
      (fun s l t => all_inv_step E hE s t l) s hs).1
  refine ⟨?_, ?_, ?_⟩
  · intro s hs r hr
    have h6 := (inv s hs).2.2.2.2.2.1
    cases hc : s.caller with
    | returned r' =>
      simp only [hc, CallerPc.result, Option.some.injEq] at hr
      subst hr
      exact h6 r' hc
    | _ => simp [hc, CallerPc.result] at hr
  · intro s hs hr
    exact all_progress E s (inv s hs) hr
  · exact ⟨All.measure, fun s _ l t h => all_measure s t l h⟩

/-- C4: for a non-empty sequence of promises made by `New` in which exactly one
promise rejects, with the non-nil error `e`, and every other promise fulfils,
`All` returns under every schedule, and the error it returns is `e`, not nil,
wherever the rejecting promise stands (after the `vs₁`, before the `vs₂`).
The sequence has fewer than `2 ^ 32` promises, so that the `int32` counter of
`All` does not wrap around. -/
theorem all_single_rejection (vs₁ vs₂ : List Val) (e : Err) (he : e ≠ none)
    (hlen : vs₁.length + vs₂.length + 1 < 2 ^ 32) :
    Returns All.step (fun s => s.caller.result)
      (All.init ((vs₁.map Write.resolve ++ Write.reject e :: vs₂.map Write.resolve).map
        fun w => New [w]))
      (fun r => r.2 = e ∧ r.2 ≠ none) := by
  refine all_rejects (fun x => x = e ∧ x ≠ none) (fun x hx => hx.2) _ ?_ ?_ ⟨e, by simp⟩
  · simp only [List.length_append, List.length_map, List.length_cons]
    omega
  intro e' he'
  simp only [List.mem_append, List.mem_map, List.mem_cons, Write.reject.injEq, reduceCtorEq,
    and_false, exists_false, false_or, or_false] at he'
  subst he'
  exact ⟨rfl, he⟩

/-- C4 at `All(p0, p1, p2)` with `p1` rejecting with the error 7. -/
theorem all_single_rejection_witness :
    Returns All.step (fun s => s.caller.result)
      (All.init (([some 1].map Write.resolve ++ Write.reject (some 7) ::
        [some 2].map Write.resolve).map fun w => New [w]))
      (fun r => r.2 = some 7 ∧ r.2 ≠ none) :=
  all_single_rejection [some 1] [some 2] (some 7) (by decide) (by decide)

/-! ## All on promises made by Resolve -/

theorem all_resolved_reach (vs : List Val) (s : AllSt)
    (hs : Reachable All.step (All.init (vs.map Resolve)) s) :
    ∃ c, s = All.onResolved vs c ∧ ((∃ idx, c = CallerPc.spawn idx) ∨ c = CallerPc.wait) := by
  refine Reachable.invariant (fun s => ∃ c, s = All.onResolved vs c ∧
      ((∃ idx, c = CallerPc.spawn idx) ∨ c = CallerPc.wait)) ⟨_, rfl, Or.inl ⟨0, rfl⟩⟩ ?_ s hs
  intro s l t ⟨c, hc, hcase⟩ hst
  subst hc
  have hobs : ∀ (i : Nat) (o : Obs), (All.onResolved vs c).obs[i]? = some o →
      ∃ v, o = { fut := Resolve v, pc := Pc.select } := by
    intro i o ho
    have := mem_of_getElem? ho
    simp only [All.onResolved, List.map_map, List.mem_map, Function.comp] at this
    obtain ⟨v, _, rfl⟩ := this
    exact ⟨v, rfl⟩
  cases l with
  | producer i =>
    exfalso
    simp only [All.step] at hst
    cases hoi : (All.onResolved vs c).obs[i]? with
    | none => simp [hoi] at hst
    | some o =>
      obtain ⟨v, rfl⟩ := hobs i o hoi
      simp [hoi, Fut.produce, Resolve] at hst
  | observer i pick =>
    exfalso
    simp only [All.step] at hst
    split at hst
    swap
    · cases hst
    cases hoi : (All.onResolved vs c).obs[i]? with
    | none => simp [hoi] at hst
    | some o =>
      obtain ⟨v, rfl⟩ := hobs i o hoi
      simp [hoi, All.stepObs, Obs.doSelect, selectSettle, Resolve, recv] at hst
  | caller pick =>
    rcases hcase with ⟨idx, rfl⟩ | rfl
    · simp only [All.step, All.onResolved] at hst
      split at hst
      · simp only [Option.some.injEq] at hst
        exact ⟨_, hst.symm, Or.inl ⟨idx + 1, rfl⟩⟩
      · simp only [Option.some.injEq] at hst
        exact ⟨_, hst.symm, Or.inr rfl⟩
    · simp [All.step, All.onResolved, make, recv] at hst

/-- C3, on the code: whatever the values `vs` and however many there are, under
no schedule does `All(Resolve(v_0), ..., Resolve(v_{n-1}))` return: the channels
of a promise made by `Resolve` are nil, so no goroutine of `All` gets past its
`select` and nothing is ever sent on `done`. -/
theorem all_resolved_never_returns (vs : List Val) :
    ¬ ∃ s, Reachable All.step (All.init (vs.map Resolve)) s ∧ s.caller.result ≠ none := by
  rintro ⟨s, hs, hr⟩
  obtain ⟨c, rfl, hc⟩ := all_resolved_reach vs s hs
  rcases hc with ⟨idx, rfl⟩ | rfl <;> exact hr rfl

/-! ## Race and Any: executions -/

/-- C6, on the code: in `Race(p0, p1)`, `p0` fulfilling with 1 and `p1`
rejecting with 2, the schedule in which both goroutines make their assignment
before the caller is woken makes `Race` return `(1, 2)`: the value of one
promise together with the error of the other. -/
theorem race_mixes_outcomes :
    (exec Race.step
      [Label.caller true, Label.caller true, Label.caller true,
       Label.producer 0, Label.producer 1,
       Label.observer 0 true, Label.observer 0 true,
       Label.observer 1 true, Label.observer 1 true,
       Label.observer 0 true, Label.caller true, Label.caller true]
      (Race.init [New [Write.resolve (some 1)], New [Write.reject (some 2)]])).map
        (fun s => s.caller.result) = some (some (some 1, some 2)) := by
  decide

/-- C7, on the code: in `Any(p0, p1)`, `p0` fulfilling with nil and `p1`
rejecting with 2, the schedule in which `p1` settles first makes `Any` return
`(nil, 2)`, a non-nil error although `p0` fulfilled; and with `p0` fulfilling
with 1, the schedule in which `p1` is rejected between the caller's `err = nil`
and its `return` makes `Any` return `(1, 2)`. -/
theorem any_returns_error_despite_fulfilment :
    (exec Any.step
      [Label.caller true, Label.caller true, Label.caller true,
       Label.producer 0, Label.producer 1,
       Label.observer 1 true, Label.observer 1 true,
       Label.observer 0 true, Label.observer 0 true, Label.observer 0 true,
       Label.caller true, Label.caller true, Label.caller true]
      (Any.init [New [Write.resolve none], New [Write.reject (some 2)]])).map
        (fun s => s.caller.result) = some (some (none, some 2)) ∧
    (exec Any.step
      [Label.caller true, Label.caller true, Label.caller true,
       Label.producer 0, Label.producer 1,
       Label.observer 0 true, Label.observer 0 true, Label.observer 0 true,
       Label.caller true, Label.caller true, Label.caller true,
       Label.observer 1 true, Label.observer 1 true, Label.caller true]
      (Any.init [New [Write.resolve (some 1)], New [Write.reject (some 2)]])).map
        (fun s => s.caller.result) = some (some (some 1, some 2)) := by
  constructor <;> decide

/-! ## Map -/

theorem map_measure {T : Type} (input : List T) (mapper : T → Fut) (concurrency : Int)
    (f : T → Val) (hm : ∀ x ∈ input, mapper x = New [Write.resolve (f x)])
    (s t : MapSt) (l : Label) (hst : Map.step input mapper concurrency l s = some t) :
    Map.measure input.length concurrency t < Map.measure input.length concurrency s := by
  cases l with
  | producer i =>
    simp only [Map.step] at hst
    cases hwi : s.workers[i]? with
    | none => simp [hwi] at hst
    | some w =>
      simp only [hwi] at hst
      cases hf : w.fut with
      | none => simp [hf] at hst
      | some g =>
        simp only [hf] at hst
        cases hp : g.produce with
        | none => simp [hp] at hst
        | some g' =>
          simp only [hp, Option.map_some', Option.some.injEq] at hst
          subst hst
          have h1 := sum_map_set (fun w : Worker => Map.weight w.pc + Map.prodLen w.fut)
            s.workers i { w with fut := some g' } w hwi
          have h2 := Fut.produce_prod hp
          have e1 : Map.prodLen w.fut = g.prod.length := by rw [hf]; rfl
          have e2 : Map.prodLen (some g') = g'.prod.length := rfl
          simp only [Map.measure, Map.queued]
          simp only [e1, e2] at h1
          omega
  | observer i pick =>
    simp only [Map.step] at hst
    cases hwi : s.workers[i]? with
    | none => simp [hwi] at hst
    | some w =>
      simp only [hwi] at hst
      cases hso : Map.stepWorker input mapper pick s w with
      | none => simp [hso] at hst
      | some x =>
        simp only [hso, Option.map_some', Option.some.injEq] at hst
        subst hst
        have key : x.1.workers = s.workers ∧ x.1.caller = s.caller ∧
            10 * (Map.queued x.1).length + (Map.weight x.2.pc + Map.prodLen x.2.fut) <
              10 * (Map.queued s).length + (Map.weight w.pc + Map.prodLen w.fut) := by
          obtain ⟨pc, fut⟩ := w
          cases pc with
          | range =>
            simp only [Map.stepWorker] at hso
            cases hr : recv s.jobs with
            | some y =>
              simp only [hr, Option.some.injEq] at hso
              subst hso
              cases hj : s.jobs with
              | none => simp [hj, recv] at hr
              | some c =>
                obtain ⟨cap, buf⟩ := c
                cases buf with
                | nil => simp [hj, recv] at hr
                | cons b bs =>
                  simp only [hj, recv, Option.some.injEq] at hr
                  subst hr
                  simp only [Map.queued, hj, Map.weight, List.length_cons]
                  refine ⟨trivial, trivial, ?_⟩
                  omega
            | none =>
              simp only [hr] at hso
              split at hso
              · simp only [Option.some.injEq] at hso
                subst hso
                simp [Map.weight]
              · cases hso
          | call idx =>
            simp only [Map.stepWorker] at hso
            cases hx : input[idx]? with
            | none => simp [hx] at hso
            | some y =>
              simp only [hx, Option.some.injEq] at hso
              subst hso
              have := hm y (mem_of_getElem? hx)
              simp only [this, Map.weight, Map.prodLen, New, List.length_singleton]
              refine ⟨trivial, trivial, ?_⟩
              omega
          | select idx =>
            simp only [Map.stepWorker] at hso
            cases hf : fut with
            | none => simp [hf] at hso
            | some g =>
              simp only [hf] at hso
              cases hsel : selectSettle pick g.p with
              | none => simp [hsel] at hso
              | some y =>
                obtain ⟨q, v | e⟩ := y <;>
                · simp only [hsel, Option.some.injEq] at hso
                  subst hso
                  simp [Map.weight, Map.prodLen]
          | setVal idx v =>
            simp only [Map.stepWorker, Option.some.injEq] at hso
            subst hso
            simp [Map.weight, Map.queued]
          | setErr e =>
            simp only [Map.stepWorker, Option.some.injEq] at hso
            subst hso
            simp [Map.weight, Map.queued]
          | doneEarly =>
            simp only [Map.stepWorker] at hso
            cases hsd : send s.done true with
            | none => simp [hsd] at hso
            | some c =>
              simp only [hsd, Option.map_some', Option.some.injEq] at hso
              subst hso
              simp [Map.weight, Map.queued]
          | add =>
            simp only [Map.stepWorker, Option.some.injEq] at hso
            subst hso
            simp [Map.weight, Map.queued]
          | load =>
            simp only [Map.stepWorker, Option.some.injEq] at hso
            subst hso
            by_cases hc : s.count = int32 input.length <;> simp [Map.weight, hc]
          | doneAll =>
            simp only [Map.stepWorker] at hso
            cases hsd : send s.done true with
            | none => simp [hsd] at hso
            | some c =>
              simp only [hsd, Option.map_some', Option.some.injEq] at hso
              subst hso
              simp [Map.weight, Map.queued]
          | exit => simp [Map.stepWorker] at hso
        obtain ⟨k1, k2, k3⟩ := key
        have h1 := sum_map_set (fun w : Worker => Map.weight w.pc + Map.prodLen w.fut)
          s.workers i x.2 w hwi
        simp only [Map.measure, Map.queued, k1, k2]
        simp only [Map.queued] at k3
        simp only at h1
        omega
  | caller pick =>
    obtain ⟨workers, result, err, done, jobs, closed, count, caller⟩ := s
    simp only [Map.step] at hst
    cases caller with
    | spawn i =>
      simp only at hst
      split at hst
      · rename_i hi
        simp only [Option.some.injEq] at hst
        subst hst
        simp only [Map.measure, Map.callerWeight, Map.queued, List.map_append, List.sum_append,
          List.map_cons, List.map_nil, List.sum_cons, List.sum_nil, Map.weight, Map.prodLen]
        have : i < concurrency.toNat := by omega
        omega
      · simp only [Option.some.injEq] at hst
        subst hst
        simp only [Map.measure, Map.callerWeight, Map.queued]
        omega
    | push idx =>
      simp only at hst
      split at hst
      · rename_i hi
        cases hj : jobs with
        | none => simp [hj, send] at hst
        | some c =>
          obtain ⟨cap, buf⟩ := c
          simp only [hj, send] at hst
          split at hst
          · simp only [Option.map_some', Option.some.injEq] at hst
            subst hst
            simp only [Map.measure, Map.callerWeight, Map.queued, List.length_append,
              List.length_singleton]
            omega
          · simp at hst
      · simp only [Option.some.injEq] at hst
        subst hst
        simp only [Map.measure, Map.callerWeight, Map.queued]
        omega
    | close =>
      simp only [Option.some.injEq] at hst
      subst hst
      simp [Map.measure, Map.callerWeight, Map.queued]
    | wait =>
      simp only at hst
      cases hr : recv done with
      | none => simp [hr] at hst
      | some x =>
        simp only [hr, Option.map_some', Option.some.injEq] at hst
        subst hst
        simp [Map.measure, Map.callerWeight, Map.queued]
    | ret =>
      simp only [Option.some.injEq] at hst
      subst hst
      simp [Map.measure, Map.callerWeight, Map.queued]
    | returned r => simp at hst

theorem wshape_mono {T : Type} {input : List T} {f : T → Val} {s t : MapSt} {w : Worker}
    (h : Map.WShape input f s w) (hc : s.count = input.length → t.count = input.length)
    (hx : s.closed = true ∧ s.jobs = some ⟨input.length, []⟩ →
      t.closed = true ∧ t.jobs = some ⟨input.length, []⟩) :
    Map.WShape input f t w := by
  obtain ⟨pc, fut⟩ := w
  cases pc <;> simp only [Map.WShape] at h ⊢ <;> first | exact h | exact hc h | exact hx h

theorem holds_inflight {i : Nat} {pc : WPc} (h : Map.holds i pc) : Map.inflight pc = true := by
  cases pc <;> simp [Map.holds] at h <;> rfl

theorem pushed_le {T : Type} {input : List T} {f : T → Val} {s : MapSt}
    (hinv : Map.Inv input f s) : Map.pushed input.length s.caller ≤ input.length := by
  cases hc : s.caller with
  | push idx => exact hinv.pushedLe idx hc
  | _ => simp [Map.pushed]

/-- A step of worker `k` keeps the invariant, given what it does to the worker
and to the shared variables. -/
theorem map_inv_of_parts {T : Type} (input : List T) (f : T → Val) (s t : MapSt) (k : Nat)
    (w w1 : Worker) (hinv : Map.Inv input f s) (hwk : s.workers[k]? = some w)
    (hws : t.workers = s.workers.set k w1) (hcaller : t.caller = s.caller)
    (hclosed : t.closed = s.closed)
    (hshape1 : Map.WShape input f t w1)
    (hcm : s.count = input.length → t.count = input.length)
    (hxm : s.closed = true ∧ s.jobs = some ⟨input.length, []⟩ →
      t.closed = true ∧ t.jobs = some ⟨input.length, []⟩)
    (hjobs : ∃ buf, t.jobs = some ⟨input.length, buf⟩ ∧ ∀ i ∈ buf, i < input.length)
    (hcount : t.count + (Map.queued t).length + (if Map.inflight w1.pc then 1 else 0) =
      s.count + (Map.queued s).length + (if Map.inflight w.pc then 1 else 0))
    (hreslen : t.result.length = input.length)
    (hres : ∀ (i : Nat) (x : T), input[i]? = some x → s.result[i]? = some (f x) →
      t.result[i]? = some (f x))
    (hq : ∀ i, i ∈ Map.queued s → i ∈ Map.queued t ∨ Map.holds i w1.pc)
    (hh : ∀ (i : Nat) (x : T), input[i]? = some x → Map.holds i w.pc →
      Map.holds i w1.pc ∨ t.result[i]? = some (f x))
    (herr : t.err = none)
    (hdone : t.done = some ⟨1, []⟩ ∨ t.done = some ⟨1, [true]⟩)
    (hdc : Map.DoneSet t → t.count = input.length)
    (hds : Map.DoneSet s → Map.DoneSet t)
    (hsig : t.count = input.length →
      (s.count ≠ input.length ∨ w.pc = WPc.load ∨ w.pc = WPc.doneAll) →
      (w1.pc = WPc.load ∨ w1.pc = WPc.doneAll) ∨ Map.DoneSet t) :
    Map.Inv input f t := by
  have hk : k < s.workers.length := (List.getElem?_eq_some_iff.mp hwk).1
  have hw1 : w1 ∈ s.workers.set k w1 := mem_of_getElem? (List.getElem?_set_self hk)
  refine ⟨?_, hjobs, ?_, ?_, hreslen, ?_, herr, hdone, hdc, ?_, ?_, ?_, ?_, ?_⟩
  · rw [hws]
    exact forall_mem_set (fun x hx => wshape_mono (hinv.shape x hx) hcm hxm) hshape1
  · rw [hcaller, hws]
    have h1 := countP_set_of (fun w : Worker => Map.inflight w.pc) s.workers k w1 w hwk
    have h2 := hinv.counting
    simp only at h1
    omega
  · rw [hcaller]
    exact hinv.pushedLe
  · intro i x hx
    rw [hcaller, hws]
    rcases hinv.settled i x hx with a | b | c | ⟨w', hw', hold⟩
    · exact Or.inl (hres i x hx a)
    · exact Or.inr (Or.inl b)
    · rcases hq i c with c | c
      · exact Or.inr (Or.inr (Or.inl c))
      · exact Or.inr (Or.inr (Or.inr ⟨w1, hw1, c⟩))
    · obtain ⟨j, hj⟩ := List.mem_iff_getElem?.mp hw'
      by_cases hjk : k = j
      · subst hjk
        rw [hwk] at hj
        cases hj
        rcases hh i x hx hold with c | c
        · exact Or.inr (Or.inr (Or.inr ⟨w1, hw1, c⟩))
        · exact Or.inl c
      · refine Or.inr (Or.inr (Or.inr ⟨w', ?_, hold⟩))
        exact mem_of_getElem? (by rw [List.getElem?_set_ne hjk]; exact hj)
  · intro hc
    rw [hws]
    by_cases hsc : s.count = input.length
    · rcases hinv.signal hsc with ⟨w', hw', hpc⟩ | hd
      · obtain ⟨j, hj⟩ := List.mem_iff_getElem?.mp hw'
        by_cases hjk : k = j
        · subst hjk
          rw [hwk] at hj
          cases hj
          rcases hsig hc (Or.inr hpc) with c | c
          · exact Or.inl ⟨w1, hw1, c⟩
          · exact Or.inr c
        · refine Or.inl ⟨w', ?_, hpc⟩
          exact mem_of_getElem? (by rw [List.getElem?_set_ne hjk]; exact hj)
      · exact Or.inr (hds hd)
    · rcases hsig hc (Or.inl hsc) with c | c
      · exact Or.inl ⟨w1, hw1, c⟩
      · exact Or.inr c
  · rw [hclosed, hcaller]
    exact hinv.closed
  · intro i hi
    rw [hws, List.length_set]
    exact hinv.spawning i (hcaller ▸ hi)
  · intro hi
    rw [hws]
    have := hinv.started (hcaller ▸ hi)
    intro h
    have h2 := congrArg List.length h
    simp only [List.length_set, List.length_nil] at h2
    exact this (List.length_eq_zero.mp h2)
  · intro r hr
    exact hinv.returned r (hcaller ▸ hr)

theorem map_inv_producer {T : Type} (input : List T) (mapper : T → Fut) (concurrency : Int)
    (f : T → Val) (s t : MapSt) (k : Nat) (hinv : Map.Inv input f s)
    (hst : Map.step input mapper concurrency (Label.producer k) s = some t) :
    Map.Inv input f t := by
  simp only [Map.step] at hst
  cases hwk : s.workers[k]? with
  | none => simp [hwk] at hst
  | some w =>
    simp only [hwk] at hst
    cases hf : w.fut with
    | none => simp [hf] at hst
    | some g =>
      simp only [hf] at hst
      cases hp : g.produce with
      | none => simp [hp] at hst
      | some g' =>
        simp only [hp, Option.map_some', Option.some.injEq] at hst
        subst hst
        have hsh := hinv.shape w (mem_of_getElem? hwk)
        refine map_inv_of_parts input f s _ k w { w with fut := some g' } hinv hwk rfl rfl rfl
          ?_ id id hinv.jobs rfl hinv.resultLen (fun _ _ _ h => h) (fun _ h => Or.inl h)
          (fun _ _ _ h => Or.inl h) hinv.err hinv.done hinv.doneCount id ?_
        · obtain ⟨pc, fut⟩ := w
          simp only at hf
          subst hf
          cases pc <;> simp only [Map.WShape] at hsh ⊢ <;> try exact hsh
          obtain ⟨x, hx, hfut⟩ := hsh
          refine ⟨x, hx, Or.inr ?_⟩
          rcases hfut with h | h
          · simp only [Option.some.injEq] at h
            subst h
            rw [produce_new] at hp
            rw [Option.some.inj hp]
          · simp only [Option.some.injEq] at h
            subst h
            rw [produce_written] at hp
            cases hp
        · intro hc hcase
          rcases hcase with h | h
          · exact absurd hc h
          · exact Or.inl h

theorem map_count_lt {T : Type} {input : List T} {f : T → Val} {s : MapSt} {w : Worker}
    (hinv : Map.Inv input f s) (hw : w ∈ s.workers) (hp : Map.inflight w.pc = true) :
    s.count < input.length := by
  have h1 := hinv.counting
  have h2 := pushed_le hinv
  have h3 : 0 < s.workers.countP (fun w => Map.inflight w.pc) :=
    List.countP_pos_iff.mpr ⟨w, hw, hp⟩
  omega

theorem map_inv_worker {T : Type} (input : List T) (mapper : T → Fut) (concurrency : Int)
    (f : T → Val) (hm : ∀ x ∈ input, mapper x = New [Write.resolve (f x)])
    (hN : input.length < 2 ^ 32)
    (s t : MapSt) (k : Nat) (pick : Bool) (hinv : Map.Inv input f s)
    (hst : Map.step input mapper concurrency (Label.observer k pick) s = some t) :
    Map.Inv input f t := by
  have hmod : int32 input.length = input.length := Nat.mod_eq_of_lt hN
  simp only [Map.step] at hst
  cases hwk : s.workers[k]? with
  | none => simp [hwk] at hst
  | some w =>
    simp only [hwk] at hst
    cases hso : Map.stepWorker input mapper pick s w with
    | none => simp [hso] at hst
    | some y =>
      simp only [hso, Option.map_some', Option.some.injEq] at hst
      subst hst
      have hmem := mem_of_getElem? hwk
      have hsh := hinv.shape w hmem
      obtain ⟨buf, hjb, hbuf⟩ := hinv.jobs
      obtain ⟨pc, fut⟩ := w
      cases pc with
      | range =>
        simp only [Map.stepWorker, hjb] at hso
        cases buf with
        | nil =>
          simp only [recv] at hso
          split at hso
          · rename_i hcl
            simp only [Option.some.injEq] at hso
            subst hso
            refine map_inv_of_parts input f s _ k _ _ hinv hwk rfl rfl rfl ?_ id id hinv.jobs
              (by simp [Map.inflight, Map.queued]) hinv.resultLen (fun _ _ _ h => h) (fun _ h => Or.inl h)
              (fun _ _ _ h => by simp [Map.holds] at h) hinv.err hinv.done hinv.doneCount id ?_
            · exact ⟨hcl, hjb⟩
            · intro hc hcase
              rcases hcase with h | h
              · exact absurd hc h
              · simp at h
          · cases hso
        | cons idx rest =>
          simp only [recv, Option.some.injEq] at hso
          subst hso
          refine map_inv_of_parts input f s _ k _ _ hinv hwk rfl rfl rfl ?_ id ?_ ?_ ?_
            hinv.resultLen (fun _ _ _ h => h) ?_ (fun _ _ _ h => by simp [Map.holds] at h)
            hinv.err hinv.done hinv.doneCount id ?_
          · exact hbuf idx (List.mem_cons_self _ _)
          · intro ⟨_, h⟩
            rw [hjb] at h
            simp at h
          · exact ⟨rest, rfl, fun i hi => hbuf i (List.mem_cons_of_mem _ hi)⟩
          · simp only [Map.queued, hjb, Map.inflight, List.length_cons]
            simp
            omega
          · intro i hi
            simp only [Map.queued, hjb, List.mem_cons] at hi
            rcases hi with hi | hi
            · exact Or.inr hi.symm
            · exact Or.inl hi
          · intro hc hcase
            rcases hcase with h | h
            · exact absurd hc h
            · simp at h
      | call idx =>
        simp only [Map.stepWorker] at hso
        cases hx : input[idx]? with
        | none => simp [hx] at hso
        | some x =>
          simp only [hx, Option.some.injEq] at hso
          subst hso
          refine map_inv_of_parts input f s _ k _ _ hinv hwk rfl rfl rfl ?_ id id hinv.jobs
            (by simp [Map.inflight, Map.queued]) hinv.resultLen (fun _ _ _ h => h) (fun _ h => Or.inl h)
            (fun _ _ _ h => Or.inl h) hinv.err hinv.done hinv.doneCount id ?_
          · exact ⟨x, hx, Or.inl (by rw [hm x (mem_of_getElem? hx)])⟩
          · intro hc hcase
            rcases hcase with h | h
            · exact absurd hc h
            · simp at h
      | select idx =>
        simp only [Map.WShape] at hsh
        obtain ⟨x, hx, hfut⟩ := hsh
        simp only [Map.stepWorker] at hso
        rcases hfut with h | h
        · subst h
          simp [select_new] at hso
        · subst h
          simp only [select_written, Option.some.injEq] at hso
          subst hso
          refine map_inv_of_parts input f s _ k _ _ hinv hwk rfl rfl rfl ?_ id id hinv.jobs
            (by simp [Map.inflight, Map.queued]) hinv.resultLen (fun _ _ _ h => h) (fun _ h => Or.inl h)
            (fun _ _ _ h => Or.inl h) hinv.err hinv.done hinv.doneCount id ?_
          · exact ⟨x, hx, rfl⟩
          · intro hc hcase
            rcases hcase with h | h
            · exact absurd hc h
            · simp at h
      | setVal idx v =>
        simp only [Map.WShape] at hsh
        obtain ⟨x, hx, hv⟩ := hsh
        subst hv
        have hidx : idx < s.result.length := by
          rw [hinv.resultLen]
          exact (List.getElem?_eq_some_iff.mp hx).1
        simp only [Map.stepWorker, Option.some.injEq] at hso
        subst hso
        refine map_inv_of_parts input f s _ k _ _ hinv hwk rfl rfl rfl trivial id id hinv.jobs
          (by simp [Map.inflight, Map.queued]) (by simp [hinv.resultLen]) ?_
          (fun _ h => Or.inl h) ?_ hinv.err hinv.done hinv.doneCount id ?_
        · intro i x' hx' h
          simp only
          by_cases hi : idx = i
          · subst hi
            rw [hx] at hx'
            cases hx'
            exact List.getElem?_set_self hidx
          · rw [List.getElem?_set_ne hi]
            exact h
        · intro i x' hx' h
          simp only [Map.holds] at h
          subst h
          rw [hx] at hx'
          cases hx'
          exact Or.inr (List.getElem?_set_self hidx)
        · intro hc hcase
          rcases hcase with h | h
          · exact absurd hc h
          · simp at h
      | setErr e => exact absurd hsh (by simp [Map.WShape])
      | doneEarly => exact absurd hsh (by simp [Map.WShape])
      | add =>
        have hlt := map_count_lt hinv hmem rfl
        have hmod1 : int32 (s.count + 1) = s.count + 1 := Nat.mod_eq_of_lt (by omega)
        simp only [Map.stepWorker, hmod1, Option.some.injEq] at hso
        subst hso
        refine map_inv_of_parts input f s _ k _ _ hinv hwk rfl rfl rfl trivial ?_ id hinv.jobs
          ?_ hinv.resultLen (fun _ _ _ h => h) (fun _ h => Or.inl h)
          (fun _ _ _ h => by simp [Map.holds] at h) hinv.err hinv.done ?_ id ?_
        · intro h
          omega
        · simp only [Map.queued, Map.inflight]
          simp
          omega
        · intro hd
          have := hinv.doneCount hd
          omega
        · intro _ _
          exact Or.inl (Or.inl rfl)
      | load =>
        simp only [Map.stepWorker, hmod, Option.some.injEq] at hso
        subst hso
        refine map_inv_of_parts input f s _ k _ _ hinv hwk rfl rfl rfl ?_ id id hinv.jobs
          ?_ hinv.resultLen (fun _ _ _ h => h) (fun _ h => Or.inl h)
          (fun _ _ _ h => by simp [Map.holds] at h) hinv.err hinv.done hinv.doneCount id ?_
        · by_cases hc : s.count = input.length <;> simp [hc, Map.WShape]
        · by_cases hc : s.count = input.length <;> simp [hc, Map.inflight, Map.queued]
        · intro hc _
          simp only at hc
          simp [hc]
      | doneAll =>
        simp only [Map.WShape] at hsh
        simp only [Map.stepWorker] at hso
        rcases hinv.done with hd | hd
        · simp only [hd, send, List.length_nil, Nat.lt_one_iff, if_true, List.nil_append,
            Option.map_some', Option.some.injEq] at hso
          subst hso
          refine map_inv_of_parts input f s _ k _ _ hinv hwk rfl rfl rfl trivial id id hinv.jobs
            (by simp [Map.inflight, Map.queued]) hinv.resultLen (fun _ _ _ h => h)
            (fun _ h => Or.inl h) (fun _ _ _ h => by simp [Map.holds] at h) hinv.err
            (Or.inr rfl) (fun _ => hsh) (fun _ => Or.inl rfl) (fun _ _ => Or.inr (Or.inl rfl))
        · simp [hd, send] at hso
      | exit => simp [Map.stepWorker] at hso

/-- Once every job is counted, `result` holds the value of every promise. -/
theorem map_result_complete {T : Type} {input : List T} {f : T → Val} {s : MapSt}
    (hinv : Map.Inv input f s) (hc : s.count = input.length) : s.result = input.map f := by
  have h1 := hinv.counting
  have h2 := pushed_le hinv
  have hq : Map.queued s = [] := List.length_eq_zero.mp (by omega)
  have hp : s.workers.countP (fun w => Map.inflight w.pc) = 0 := by omega
  apply List.ext_getElem?
  intro i
  by_cases hi : i < input.length
  · have hx : input[i]? = some input[i] := List.getElem?_eq_getElem hi
    rw [List.getElem?_map, hx, Option.map_some']
    rcases hinv.settled i _ hx with a | b | c | ⟨w, hw, hold⟩
    · exact a
    · omega
    · rw [hq] at c
      cases c
    · have : 0 < s.workers.countP (fun w => Map.inflight w.pc) :=
        List.countP_pos_iff.mpr ⟨w, hw, holds_inflight hold⟩
      omega
  · rw [List.getElem?_eq_none_iff.mpr (by rw [hinv.resultLen]; omega),
      List.getElem?_eq_none_iff.mpr (by rw [List.length_map]; omega)]

theorem map_inv_caller {T : Type} (input : List T) (mapper : T → Fut) (concurrency : Int)
    (f : T → Val) (hconc : 1 ≤ concurrency) (s t : MapSt) (pick : Bool)
    (hinv : Map.Inv input f s)
    (hst : Map.step input mapper concurrency (Label.caller pick) s = some t) :
    Map.Inv input f t := by
  have hres := map_result_complete hinv
  have hple := pushed_le hinv
  obtain ⟨h1, h2, h3, h4, h5, h6, h7, h8, h9, h10, h11, h12, h13, h14⟩ := hinv
  obtain ⟨workers, result, err, done, jobs, closed, count, caller⟩ := s
  simp only [Map.step] at hst
  simp only at h1 h2 h3 h4 h5 h6 h7 h8 h9 h10 h11 h12 h13 h14 hres hple
  cases caller with
  | spawn i =>
    simp only at hst
    split at hst
    · simp only [Option.some.injEq] at hst
      subst hst
      refine ⟨?_, h2, ?_, by simp, h5, ?_, h7, h8, ?_, ?_, h11, ?_, by simp, by simp⟩
      · intro w hw
        simp only [List.mem_append, List.mem_singleton] at hw
        rcases hw with hw | hw
        · exact wshape_mono (h1 w hw) id id
        · subst hw
          trivial
      · have e : List.countP (fun w : Worker => Map.inflight w.pc)
            [{ pc := WPc.range, fut := none }] = 0 := rfl
        simp only [List.countP_append, e]
        simp only [Map.pushed, Map.queued] at h3 ⊢
        omega
      · intro i x hx
        exact Or.inr (Or.inl (Nat.zero_le _))
      · intro hd
        exact h9 (by simpa [Map.DoneSet, Map.pastWait] using hd)
      · intro hc
        rcases h10 hc with ⟨w, hw, hpc⟩ | hd
        · exact Or.inl ⟨w, List.mem_append_left _ hw, hpc⟩
        · exact Or.inr (by simpa [Map.DoneSet, Map.pastWait] using hd)
      · intro j hj
        simp only [MapPc.spawn.injEq] at hj
        subst hj
        simp [h12 i rfl]
    · rename_i hi
      simp only [Option.some.injEq] at hst
      subst hst
      refine ⟨fun w hw => wshape_mono (h1 w hw) id id, h2, h3, ?_, h5, ?_, h7, h8, ?_, ?_, h11,
        by simp, ?_, by simp⟩
      · intro idx hidx
        simp only [MapPc.push.injEq] at hidx
        omega
      · intro i x hx
        exact Or.inr (Or.inl (Nat.zero_le _))
      · intro hd
        exact h9 (by simpa [Map.DoneSet, Map.pastWait] using hd)
      · intro hc
        rcases h10 hc with h | hd
        · exact Or.inl h
        · exact Or.inr (by simpa [Map.DoneSet, Map.pastWait] using hd)
      · intro _ hw
        simp only at hw
        have := h12 i rfl
        rw [hw] at this
        simp only [List.length_nil] at this
        omega
  | push idx =>
    obtain ⟨buf, hjb, hbuf⟩ := h2
    have hcl : closed = false := by simpa [Map.pastClose] using h11
    simp only at hst
    split at hst
    · rename_i hi
      have hlen : buf.length < input.length := by
        simp only [Map.pushed, Map.queued, hjb] at h3
        omega
      simp only [hjb, send, hlen, if_true, Option.map_some', Option.some.injEq] at hst
      subst hst
      refine ⟨fun w hw => wshape_mono (h1 w hw) id (by simp [hcl]), ?_, ?_, ?_, h5, ?_, h7, h8,
        ?_, ?_, h11, by simp, fun _ => h13 (by simp), by simp⟩
      · refine ⟨buf ++ [idx], rfl, ?_⟩
        intro i hi'
        simp only [List.mem_append, List.mem_singleton] at hi'
        rcases hi' with h | h
        · exact hbuf i h
        · omega
      · simp only [Map.pushed, Map.queued, hjb, List.length_append, List.length_singleton]
          at h3 ⊢
        omega
      · intro j hj
        simp only [MapPc.push.injEq] at hj
        omega
      · intro i x hx
        rcases h6 i x hx with a | b | c | d
        · exact Or.inl a
        · simp only [Map.pushed] at b ⊢
          by_cases hii : i = idx
          · subst hii
            exact Or.inr (Or.inr (Or.inl (by simp [Map.queued])))
          · exact Or.inr (Or.inl (by omega))
        · simp only [Map.queued, hjb] at c
          exact Or.inr (Or.inr (Or.inl (by simp [Map.queued, c])))
        · exact Or.inr (Or.inr (Or.inr d))
      · intro hd
        exact h9 (by simpa [Map.DoneSet, Map.pastWait] using hd)
      · intro hc
        rcases h10 hc with h | hd
        · exact Or.inl h
        · exact Or.inr (by simpa [Map.DoneSet, Map.pastWait] using hd)
    · rename_i hi
      have hidx : idx = input.length := by
        have := h4 idx rfl
        omega
      simp only [Option.some.injEq] at hst
      subst hst
      refine ⟨fun w hw => wshape_mono (h1 w hw) id (by simp [hcl]), ⟨buf, hjb, hbuf⟩, ?_, by simp,
        h5, ?_, h7, h8, ?_, ?_, h11, by simp, fun _ => h13 (by simp), by simp⟩
      · simpa [Map.pushed, hidx] using h3
      · intro i x hx
        simpa [Map.pushed, hidx] using h6 i x hx
      · intro hd
        exact h9 (by simpa [Map.DoneSet, Map.pastWait] using hd)
      · intro hc
        rcases h10 hc with h | hd
        · exact Or.inl h
        · exact Or.inr (by simpa [Map.DoneSet, Map.pastWait] using hd)
  | close =>
    have hcl : closed = false := by simpa [Map.pastClose] using h11
    simp only [Option.some.injEq] at hst
    subst hst
    refine ⟨fun w hw => wshape_mono (h1 w hw) id (by simp [hcl]), h2, h3, by simp, h5, h6, h7, h8,
      ?_, ?_, rfl, by simp, fun _ => h13 (by simp), by simp⟩
    · intro hd
      exact h9 (by simpa [Map.DoneSet, Map.pastWait] using hd)
    · intro hc
      rcases h10 hc with h | hd
      · exact Or.inl h
      · exact Or.inr (by simpa [Map.DoneSet, Map.pastWait] using hd)
  | wait =>
    simp only at hst
    rcases h8 with hd | hd
    · simp [hd, recv] at hst
    · simp only [hd, recv, Option.map_some', Option.some.injEq] at hst
      subst hst
      have hc : count = input.length := h9 (Or.inl hd)
      exact ⟨fun w hw => wshape_mono (h1 w hw) id id, h2, h3, by simp, h5, h6, h7, Or.inl rfl,
        fun _ => hc, fun _ => Or.inr (Or.inr rfl), h11, by simp, fun _ => h13 (by simp), by simp⟩
  | ret =>
    simp only [Option.some.injEq] at hst
    subst hst
    have hc : count = input.length := h9 (Or.inr rfl)
    refine ⟨fun w hw => wshape_mono (h1 w hw) id id, h2, h3, by simp, h5, h6, h7, h8,
      fun _ => hc, fun _ => Or.inr (Or.inr rfl), h11, by simp, fun _ => h13 (by simp), ?_⟩
    intro r hr
    simp only [MapPc.returned.injEq] at hr
    subst hr
    rw [hres hc, h7]
  | returned r => simp at hst

theorem map_inv_init {T : Type} (input : List T) (f : T → Val) (hne : input ≠ []) :
    Map.Inv input f (Map.init input.length) := by
  have hpos : 0 < input.length := List.length_pos.mpr hne
  refine ⟨by simp [Map.init], ⟨[], rfl, by simp⟩, by simp [Map.init, Map.pushed, Map.queued, make],
    by simp [Map.init], by simp [Map.init], ?_, rfl, Or.inl rfl, ?_, ?_, rfl, ?_, ?_, ?_⟩
  · intro i x hx
    exact Or.inr (Or.inl (Nat.zero_le _))
  · intro hd
    simp [Map.DoneSet, Map.init, Map.pastWait, make] at hd
  · intro hc
    simp only [Map.init] at hc
    omega
  · intro i hi
    simp only [Map.init, MapPc.spawn.injEq] at hi
    subst hi
    rfl
  · intro h
    exact absurd rfl (h 0)
  · intro r hr
    simp [Map.init] at hr

theorem map_inv_step {T : Type} (input : List T) (mapper : T → Fut) (concurrency : Int)
    (f : T → Val) (hm : ∀ x ∈ input, mapper x = New [Write.resolve (f x)])
    (hconc : 1 ≤ concurrency) (hN : input.length < 2 ^ 32) (s t : MapSt) (l : Label)
    (hinv : Map.Inv input f s)
    (hst : Map.step input mapper concurrency l s = some t) : Map.Inv input f t := by
  cases l with
  | producer k => exact map_inv_producer input mapper concurrency f s t k hinv hst
  | observer k pick => exact map_inv_worker input mapper concurrency f hm hN s t k pick hinv hst
  | caller pick => exact map_inv_caller input mapper concurrency f hconc s t pick hinv hst

theorem map_progress {T : Type} (input : List T) (mapper : T → Fut) (concurrency : Int)
    (f : T → Val) (s : MapSt) (hinv : Map.Inv input f s) (hret : s.caller.result = none) :
    ∃ l t, Map.step input mapper concurrency l s = some t := by
  obtain ⟨buf, hjb, hbuf⟩ := hinv.jobs
  cases hc : s.caller with
  | spawn i =>
    refine ⟨Label.caller true, ?_⟩
    by_cases hi : (i : Int) < concurrency <;> simp [Map.step, hc, hi]
  | push idx =>
    refine ⟨Label.caller true, ?_⟩
    by_cases hi : idx < input.length
    · have hlen : buf.length < input.length := by
        have := hinv.counting
        simp only [hc, Map.pushed, Map.queued, hjb] at this
        omega
      simp [Map.step, hc, hi, hjb, send, hlen]
    · simp [Map.step, hc, hi]
  | close =>
    refine ⟨Label.caller true, ?_⟩
    simp [Map.step, hc]
  | ret =>
    refine ⟨Label.caller true, ?_⟩
    simp [Map.step, hc]
  | returned r => simp [hc, MapPc.result] at hret
  | wait =>
    rcases hinv.done with hd | hd
    swap
    · refine ⟨Label.caller true, ?_⟩
      simp [Map.step, hc, hd, recv]
    have hcl : s.closed = true := by
      rw [hinv.closed, hc]
      rfl
    by_cases hall : ∀ w ∈ s.workers, w.pc = WPc.exit
    · exfalso
      have hne : s.workers ≠ [] := hinv.started (by simp [hc])
      have hp : s.workers.countP (fun w => Map.inflight w.pc) = 0 := by
        rw [List.countP_eq_zero]
        intro w hw
        simp [hall w hw, Map.inflight]
      obtain ⟨w, hw⟩ := List.exists_mem_of_ne_nil _ hne
      have hsh := hinv.shape w hw
      obtain ⟨pc, fut⟩ := w
      have hpc := hall _ hw
      simp only at hpc
      subst hpc
      simp only [Map.WShape] at hsh
      have hcount := hinv.counting
      simp only [hc, Map.pushed, Map.queued, hsh.2, hp, List.length_nil] at hcount
      rcases hinv.signal (by omega) with ⟨w', hw', hpc'⟩ | hdone
      · rw [hall w' hw'] at hpc'
        simp at hpc'
      · simp [Map.DoneSet, hd, hc, Map.pastWait] at hdone
    · push_neg at hall
      obtain ⟨w, hw, hpc⟩ := hall
      obtain ⟨k, hwk⟩ := List.mem_iff_getElem?.mp hw
      have hsh := hinv.shape w hw
      obtain ⟨pc, fut⟩ := w
      cases pc with
      | range =>
        refine ⟨Label.observer k true, ?_⟩
        cases buf with
        | nil => simp [Map.step, hwk, Map.stepWorker, hjb, recv, hcl]
        | cons b bs => simp [Map.step, hwk, Map.stepWorker, hjb, recv]
      | call idx =>
        simp only [Map.WShape] at hsh
        refine ⟨Label.observer k true, ?_⟩
        simp [Map.step, hwk, Map.stepWorker, List.getElem?_eq_getElem hsh]
      | select idx =>
        simp only [Map.WShape] at hsh
        obtain ⟨x, hx, hfut⟩ := hsh
        rcases hfut with h | h
        · subst h
          refine ⟨Label.producer k, ?_⟩
          simp [Map.step, hwk, produce_new]
        · subst h
          refine ⟨Label.observer k true, ?_⟩
          simp [Map.step, hwk, Map.stepWorker, select_written]
      | setVal idx v =>
        refine ⟨Label.observer k true, ?_⟩
        simp [Map.step, hwk, Map.stepWorker]
      | setErr e => exact absurd hsh (by simp [Map.WShape])
      | doneEarly => exact absurd hsh (by simp [Map.WShape])
      | add =>
        refine ⟨Label.observer k true, ?_⟩
        simp [Map.step, hwk, Map.stepWorker]
      | load =>
        refine ⟨Label.observer k true, ?_⟩
        simp [Map.step, hwk, Map.stepWorker]
      | doneAll =>
        refine ⟨Label.observer k true, ?_⟩
        simp [Map.step, hwk, Map.stepWorker, hd, send]
      | exit => exact absurd rfl hpc

/-- For a non-empty input, a worker count `concurrency >= 1` and a mapper
whose promise for `x` is made by `New` and fulfils with `f x`, `Map` returns
under every schedule, with a nil error and a result of the length of the input
whose entry `i` is the value the promise `mapper(input[i])` fulfilled with.
The input has fewer than `2 ^ 32` elements, so that the `int32` counter of
`Map` does not wrap around. -/
theorem map_returns_in_order {T : Type} (input : List T) (mapper : T → Fut) (concurrency : Int)
    (f : T → Val) (hne : input ≠ []) (hconc : 1 ≤ concurrency)
    (hlen : input.length < 2 ^ 32)
    (hm : ∀ x ∈ input, mapper x = New [Write.resolve (f x)]) :
    Returns (Map.step input mapper concurrency) (fun s => s.caller.result)
      (Map.init input.length)
      (fun r => r.2 = none ∧ r.1.length = input.length ∧
        ∀ (i : Nat) (x : T), input[i]? = some x → r.1[i]? = some (f x)) := by
  have inv : ∀ s, Reachable (Map.step input mapper concurrency) (Map.init input.length) s →
      Map.Inv input f s :=
    Reachable.invariant (Map.Inv input f) (map_inv_init input f hne)
      (fun s l t => map_inv_step input mapper concurrency f hm hconc hlen s t l)
  refine ⟨?_, ?_, ?_⟩
  · intro s hs r hr
    cases hc : s.caller with
    | returned r' =>
      simp only [hc, MapPc.result, Option.some.injEq] at hr
      subst hr
      have := (inv s hs).returned r' hc
      subst this
      refine ⟨rfl, by simp, ?_⟩
      intro i x hx
      simp [List.getElem?_map, hx]
    | _ => simp [hc, MapPc.result] at hr
  · intro s hs hr
    exact map_progress input mapper concurrency f s (inv s hs) hr
  · exact ⟨Map.measure input.length concurrency,
      fun s _ l t h => map_measure input mapper concurrency f hm s t l h⟩

/-- The call of `TestMap`, the promise for `x` fulfilling with `x`: four inputs,
two workers. -/
theorem map_returns_in_order_testMap :
    Returns (Map.step [100, 200, 400, 800] (fun x => New [Write.resolve (some x)]) 2)
      (fun s => s.caller.result) (Map.init [100, 200, 400, 800].length)
      (fun r => r.2 = none ∧ r.1.length = [100, 200, 400, 800].length ∧
        ∀ (i : Nat) (x : Nat), [100, 200, 400, 800][i]? = some x → r.1[i]? = some (some x)) :=
  map_returns_in_order [100, 200, 400, 800] (fun x => New [Write.resolve (some x)]) 2
    (fun x => some x) (by simp) (by decide) (by decide) (fun _ _ => rfl)

/-! ## Map with a mapper that returns promises made by Resolve -/

theorem map_resolved_inv {T : Type} (input : List T) (f : T → Val) (concurrency : Int)
    (s : MapSt)
    (hs : Reachable (Map.step input (fun x => Resolve (f x)) concurrency)
      (Map.init input.length) s) : Map.StuckInv s := by
  refine Reachable.invariant Map.StuckInv ⟨rfl, by simp [Map.init], Or.inl ⟨0, rfl⟩⟩ ?_ s hs
  intro s l t ⟨hd, hw, hc⟩ hst
  cases l with
  | producer k =>
    exfalso
    simp only [Map.step] at hst
    cases hwk : s.workers[k]? with
    | none => simp [hwk] at hst
    | some w =>
      simp only [hwk] at hst
      rcases hw w (mem_of_getElem? hwk) with ⟨_, h⟩ | ⟨_, _, h⟩ | ⟨_, v, _, h⟩ | ⟨_, h⟩ <;>
        simp [h, Fut.produce, Resolve] at hst
  | observer k pick =>
    simp only [Map.step] at hst
    cases hwk : s.workers[k]? with
    | none => simp [hwk] at hst
    | some w =>
      simp only [hwk] at hst
      cases hso : Map.stepWorker input (fun x => Resolve (f x)) pick s w with
      | none => simp [hso] at hst
      | some y =>
        simp only [hso, Option.map_some', Option.some.injEq] at hst
        subst hst
        have key : y.1.done = s.done ∧ y.1.workers = s.workers ∧ y.1.caller = s.caller ∧
            Map.Stuck y.2 := by
          obtain ⟨pc, fut⟩ := w
          rcases hw _ (mem_of_getElem? hwk) with ⟨h1, h2⟩ | ⟨idx, h1, h2⟩ | ⟨idx, v, h1, h2⟩ |
            ⟨h1, h2⟩
          · simp only at h1 h2
            subst h1 h2
            simp only [Map.stepWorker] at hso
            cases hr : recv s.jobs with
            | some z =>
              simp only [hr, Option.some.injEq] at hso
              subst hso
              exact ⟨rfl, rfl, rfl, Or.inr (Or.inl ⟨z.1, rfl, rfl⟩)⟩
            | none =>
              simp only [hr] at hso
              split at hso
              · simp only [Option.some.injEq] at hso
                subst hso
                exact ⟨rfl, rfl, rfl, Or.inr (Or.inr (Or.inr ⟨rfl, rfl⟩))⟩
              · cases hso
          · simp only at h1 h2
            subst h1 h2
            simp only [Map.stepWorker] at hso
            cases hx : input[idx]? with
            | none => simp [hx] at hso
            | some x =>
              simp only [hx, Option.some.injEq] at hso
              subst hso
              exact ⟨rfl, rfl, rfl, Or.inr (Or.inr (Or.inl ⟨idx, f x, rfl, rfl⟩))⟩
          · simp only at h1 h2
            subst h1 h2
            simp [Map.stepWorker, selectSettle, Resolve, recv] at hso
          · simp only at h1 h2
            subst h1 h2
            simp [Map.stepWorker] at hso
        obtain ⟨k1, k2, k3, k4⟩ := key
        refine ⟨by simpa [k1] using hd, ?_, by simpa [k3] using hc⟩
        simp only [k2]
        exact forall_mem_set hw k4
  | caller pick =>
    obtain ⟨workers, result, err, done, jobs, closed, count, caller⟩ := s
    simp only at hd hw hc
    simp only [Map.step] at hst
    rcases hc with ⟨i, rfl⟩ | ⟨idx, rfl⟩ | rfl | rfl
    · simp only at hst
      split at hst
      · simp only [Option.some.injEq] at hst
        subst hst
        refine ⟨hd, ?_, Or.inl ⟨i + 1, rfl⟩⟩
        intro w hw'
        simp only [List.mem_append, List.mem_singleton] at hw'
        rcases hw' with h | h
        · exact hw w h
        · subst h
          exact Or.inl ⟨rfl, rfl⟩
      · simp only [Option.some.injEq] at hst
        subst hst
        exact ⟨hd, hw, Or.inr (Or.inl ⟨0, rfl⟩)⟩
    · simp only at hst
      split at hst
      · cases hsd : send jobs idx with
        | none => simp [hsd] at hst
        | some c =>
          simp only [hsd, Option.map_some', Option.some.injEq] at hst
          subst hst
          exact ⟨hd, hw, Or.inr (Or.inl ⟨idx + 1, rfl⟩)⟩
      · simp only [Option.some.injEq] at hst
        subst hst
        exact ⟨hd, hw, Or.inr (Or.inr (Or.inl rfl))⟩
    · simp only [Option.some.injEq] at hst
      subst hst
      exact ⟨hd, hw, Or.inr (Or.inr (Or.inr rfl))⟩
    · exfalso
      simp [hd, make, recv] at hst

/-- C8, on the code: whatever the input, the worker count and the values, when
the mapper returns promises made by `Resolve`, each of them fulfilled, under no
schedule does `Map` return: the channels of such a promise are nil, so a worker
never gets past the `select` of its first job and nothing is ever sent on
`done`.  For the input `[1, 2]`, two workers and `mapper(x) = Resolve(x)`, a
state is reached in which no goroutine can move and `Map` has not returned. -/
theorem map_resolved_never_returns :
    (∀ (T : Type) (input : List T) (f : T → Val) (concurrency : Int),
      ¬ ∃ s, Reachable (Map.step input (fun x => Resolve (f x)) concurrency)
        (Map.init input.length) s ∧ s.caller.result ≠ none) ∧
    (∃ s, Reachable (Map.step [1, 2] (fun x => Resolve (some x)) 2) (Map.init 2) s ∧
      s.caller = MapPc.wait ∧
      (∀ l, Map.step [1, 2] (fun x => Resolve (some x)) 2 l s = none)) := by
  constructor
  · rintro T input f concurrency ⟨s, hs, hr⟩
    obtain ⟨_, _, hc⟩ := map_resolved_inv input f concurrency s hs
    rcases hc with ⟨i, h⟩ | ⟨idx, h⟩ | h | h <;> simp [h, MapPc.result] at hr
  · have hex : exec (Map.step [1, 2] (fun x => Resolve (some x)) 2)
        [Label.caller true, Label.caller true, Label.caller true, Label.caller true,
         Label.caller true, Label.caller true, Label.caller true,
         Label.observer 0 true, Label.observer 1 true,
         Label.observer 0 true, Label.observer 1 true] (Map.init 2) =
        some { workers := [{ pc := WPc.select 0, fut := some (Resolve (some 1)) },
                           { pc := WPc.select 1, fut := some (Resolve (some 2)) }],
               result := [none, none], err := none, done := make Bool 1,
               jobs := some ⟨2, []⟩, closed := true, count := 0, caller := MapPc.wait } := by
      decide
    refine ⟨_, Reachable.of_exec _ _ _ Reachable.start hex, rfl, ?_⟩
    intro l
    cases l with
    | producer k =>
      match k with
      | 0 => simp [Map.step, Fut.produce, Resolve]
      | 1 => simp [Map.step, Fut.produce, Resolve]
      | k + 2 => simp [Map.step]
    | observer k pick =>
      match k with
      | 0 => simp [Map.step, Map.stepWorker, selectSettle, Resolve, recv]
      | 1 => simp [Map.step, Map.stepWorker, selectSettle, Resolve, recv]
      | k + 2 => simp [Map.step]
    | caller pick => simp [Map.step, make, recv]

end GoPromise
